import Mathlib

/-!
Verification development for the ClassAnnotation 3D-Slicer extension
(`ClassAnnotation.py`, `ClassAnnotationLib/ClassAnnotationUtils.py`).

The Python code is shallowly embedded: directories become a rose tree
(`FSEntry`), CSV files become lists of string rows (Python's `csv`
writer/reader round-trips rows faithfully), and the imaging/host oracles
(`SimpleITK` readers, the SHA-256 digest) are explicit function
parameters.  String operations (`startswith`, `endswith`, `strip`,
`lower`, `splitext`, `basename`, `join`) are re-implemented over
`List Char` with Python semantics (ASCII model for `lower`).
-/

namespace ClassAnnotation


/-! ## Python string primitives -/

/-- Python `pre.isPrefixOf`-style check on char lists (`str.startswith`). -/
def listIsPrefix : List Char → List Char → Bool
  | [], _ => true
  | _ :: _, [] => false
  | a :: as, b :: bs => a == b && listIsPrefix as bs

/-- Python `s.startswith(pre)`. -/
def pyStartsWith (s pre : String) : Bool := listIsPrefix pre.data s.data

/-- Python `s.endswith(suf)`. -/
def pyEndsWith (s suf : String) : Bool := listIsPrefix suf.data.reverse s.data.reverse

/-- Characters stripped by Python `str.strip()` (ASCII whitespace). -/
def pySpaceChar (c : Char) : Bool :=
  c == ' ' || c == '\t' || c == '\n' || c == '\r' || c == '\x0b' || c == '\x0c'

/-- Python `s.strip()` on a char list. -/
def pyStripList (l : List Char) : List Char :=
  ((l.dropWhile pySpaceChar).reverse.dropWhile pySpaceChar).reverse

/-- Python `s.strip()`. -/
def pyStrip (s : String) : String := ⟨pyStripList s.data⟩

/-- ASCII decimal digit test. -/
def pyDigitChar (c : Char) : Bool := decide ('0'.toNat ≤ c.toNat) && decide (c.toNat ≤ '9'.toNat)

/-- Python `s.isdigit()` (ASCII model: nonempty and all decimal digits). -/
def pyIsDigits (s : String) : Bool := !s.data.isEmpty && s.data.all pyDigitChar

/-- Python `int(s)` on a digit string. -/
def pyParseNat (s : String) : Nat :=
  s.data.foldl (fun a c => a * 10 + (c.toNat - '0'.toNat)) 0

/-- One decimal digit as a character. -/
def digitChar : Nat → Char
  | 0 => '0' | 1 => '1' | 2 => '2' | 3 => '3' | 4 => '4'
  | 5 => '5' | 6 => '6' | 7 => '7' | 8 => '8' | 9 => '9'
  | _ => '*'

/-- Decimal digits, least significant first, with a fuel bound (structural
recursion, so that concrete values reduce in the kernel). -/
def natDigitsRevF : Nat → Nat → List Char
  | 0, _ => []
  | fuel + 1, n => if n < 10 then [digitChar n] else digitChar (n % 10) :: natDigitsRevF fuel (n / 10)

/-- Decimal digits of `n`, least significant first. -/
def natDigitsRev (n : Nat) : List Char := natDigitsRevF (n + 1) n

/-- Python `str(n)` for a natural number. -/
def pyStrOfNat (n : Nat) : String := ⟨(natDigitsRev n).reverse⟩

/-- ASCII lower-casing of one character (model of `str.lower`). -/
def lowerChar : Char → Char
  | 'A' => 'a' | 'B' => 'b' | 'C' => 'c' | 'D' => 'd' | 'E' => 'e'
  | 'F' => 'f' | 'G' => 'g' | 'H' => 'h' | 'I' => 'i' | 'J' => 'j'
  | 'K' => 'k' | 'L' => 'l' | 'M' => 'm' | 'N' => 'n' | 'O' => 'o'
  | 'P' => 'p' | 'Q' => 'q' | 'R' => 'r' | 'S' => 's' | 'T' => 't'
  | 'U' => 'u' | 'V' => 'v' | 'W' => 'w' | 'X' => 'x' | 'Y' => 'y'
  | 'Z' => 'z' | c => c

/-- Python `s.lower()` (ASCII model). -/
def pyLower (s : String) : String := ⟨s.data.map lowerChar⟩

/-- Lexicographic (code-point) `≤` on char lists: Python string comparison. -/
def listLexLe : List Char → List Char → Bool
  | [], _ => true
  | _ :: _, [] => false
  | a :: as, b :: bs => if a = b then listLexLe as bs else decide (a.toNat < b.toNat)

/-- Python `s <= t` on strings (code-point lexicographic). -/
def pyStrLe (s t : String) : Bool := listLexLe s.data t.data

/-- Python `sep.join(l)`. -/
def pyJoin (sep : String) (l : List String) : String :=
  match l with
  | [] => ""
  | x :: xs => xs.foldl (fun acc s => acc ++ sep ++ s) x

/-- Substring test `needle in hay` (Python `in` on strings). -/
def listHasSub (needle : List Char) : List Char → Bool
  | [] => listIsPrefix needle []
  | c :: t => listIsPrefix needle (c :: t) || listHasSub needle t

/-- Python `needle in hay` for strings. -/
def pyInStr (needle hay : String) : Bool := listHasSub needle.data hay.data

/-- `os.path.join(a, b)` for relative `b`. -/
def pathJoin (a b : String) : String :=
  if pyStartsWith b "/" then b
  else if a = "" || pyEndsWith a "/" then a ++ b
  else a ++ "/" ++ b

/-- `os.path.basename`: the part after the last slash. -/
def pyBasename (p : String) : String := ⟨(p.data.reverse.takeWhile (· ≠ '/')).reverse⟩

/-- `os.path.dirname`: the part before the last slash, trailing slashes stripped. -/
def pyDirname (p : String) : String :=
  let head := (p.data.reverse.dropWhile (· ≠ '/')).reverse
  if head.all (· = '/') then ⟨head⟩ else ⟨(head.reverse.dropWhile (· = '/')).reverse⟩

/-- `os.path.splitext` on a bare file name: split at the last dot provided a
non-dot character precedes it. -/
def pySplitextList (l : List Char) : List Char × List Char :=
  match l.reverse.findIdx? (· = '.') with
  | none => (l, [])
  | some rIdx =>
    let i := l.length - 1 - rIdx
    if (l.take i).any (fun c => c ≠ '.') then (l.take i, l.drop i) else (l, [])

/-- `os.path.splitext(f)` for a file name, returning the root (before the
extension). -/
def pySplitextRoot (f : String) : String := ⟨(pySplitextList f.data).1⟩

/-! ## File-system model

A directory is a list of `(name, entry)` pairs in `os.listdir` order; an
entry is a plain file (with its byte content as a string) or a
subdirectory. -/

inductive FSEntry where
  | file (content : String)
  | dir (entries : List (String × FSEntry))

abbrev Dir := List (String × FSEntry)

/-- Is the entry a plain file (`os.path.isfile`)? -/
def FSEntry.isFileE : FSEntry → Bool
  | .file _ => true
  | .dir _ => false

/-- First entry of the directory with the given name (file names are unique
in a real directory). -/
def dirGet (d : Dir) (k : String) : Option FSEntry :=
  match d with
  | [] => none
  | (k2, v) :: rest => if k2 = k then some v else dirGet rest k

/-- Replace the first entry named `k` (or append a new one). -/
def dirSet (d : Dir) (k : String) (v : FSEntry) : Dir :=
  match d with
  | [] => [(k, v)]
  | (k2, v2) :: rest => if k2 = k then (k, v) :: rest else (k2, v2) :: dirSet rest k v

/-- Remove every entry named `k`. -/
def dirRemove (d : Dir) (k : String) : Dir :=
  match d with
  | [] => []
  | (k2, v) :: rest => if k2 = k then dirRemove rest k else (k2, v) :: dirRemove rest k

/-! ## Dataset-shape inference and patient discovery
(`ClassAnnotationLogic.isFlatDataset`, `isHierarchicalDataset`,
`getAllPatientIDs`, `getPatientFilesForReview`). -/

def SUPPORTED_FORMATS : List String := [".nrrd", ".nii", ".nii.gz", ".dcm", ".DCM", ".mha"]

def OUTPUT_FOLDER : String := "output"

def CSV_NAME : String := "classification_results.csv"

/-- `f.endswith(tuple(SUPPORTED_FORMATS))`. -/
def endsWithSupported (f : String) : Bool := SUPPORTED_FORMATS.any (fun ext => pyEndsWith f ext)

/-- `ClassAnnotationLogic.isFlatDataset`: some non-hidden plain file in the
dataset root, other than the CSV ledger, has a supported extension. -/
def isFlatDataset (tree : Dir) : Bool :=
  (tree.filter (fun p =>
      p.2.isFileE && !pyStartsWith p.1 "." && p.1 ≠ CSV_NAME)).any
    (fun p => endsWithSupported p.1)

/-- `ClassAnnotationLogic.isHierarchicalDataset`: some immediate
subdirectory has an entry with a supported extension. -/
def isHierarchicalDataset (tree : Dir) : Bool :=
  tree.any (fun p =>
    match p.2 with
    | .dir sub => sub.any (fun q => endsWithSupported q.1)
    | .file _ => false)

/-- `fileName.split("_")[0]`: the part before the first underscore. -/
def splitUnderscoreHead (s : String) : String := ⟨s.data.takeWhile (· ≠ '_')⟩

/-- Sorting of a list of strings with Python `sorted` (code-point order). -/
def pySortStrings (l : List String) : List String :=
  List.insertionSort (fun a b => pyStrLe a b = true) l

/-- `ClassAnnotationLogic.getAllPatientIDs`. -/
def getAllPatientIDs (tree : Dir) : List String :=
  if isHierarchicalDataset tree then
    pySortStrings ((tree.filter (fun p =>
      !p.2.isFileE && pyLower p.1 ≠ OUTPUT_FOLDER && !pyStartsWith p.1 ".")).map Prod.fst).dedup
  else if isFlatDataset tree then
    pySortStrings (((tree.filter (fun p =>
      p.2.isFileE && pyLower p.1 ≠ OUTPUT_FOLDER && !pyStartsWith p.1 "." &&
        p.1 ≠ CSV_NAME)).map (fun p => splitUnderscoreHead p.1)).dedup)
  else []

/-- `ClassAnnotationLogic.getPatientFilesForReview`.  In the hierarchical
branch the code calls `os.listdir` on the patient folder; an entry of the
same name that is a plain file would raise, modelled here as `[]`. -/
def getPatientFilesForReview (datasetPath : String) (tree : Dir) (patientID : String)
    (isHier : Bool) : List String :=
  if isHier then
    match dirGet tree patientID with
    | some (.dir sub) =>
      (sub.filter (fun q => endsWithSupported q.1)).map
        (fun q => pathJoin (pathJoin datasetPath patientID) q.1)
    | _ => []
  else
    (tree.filter (fun p => pyStartsWith p.1 patientID && endsWithSupported p.1)).map
      (fun p => pathJoin datasetPath p.1)

/-! ### `os.walk` and `findOriginalFile` -/

mutual
/-- Entries produced by `os.walk` under `root` for the listed entries. -/
def walkList (root : String) : Dir → List (String × Dir)
  | [] => []
  | (_, FSEntry.file _) :: rest => walkList root rest
  | (name, FSEntry.dir sub) :: rest => walkFrom (pathJoin root name) sub ++ walkList root rest

/-- `os.walk(root)` on a directory with entries `d` (top-down order). -/
def walkFrom (root : String) (d : Dir) : List (String × Dir) :=
  (root, d) :: walkList root d
end

/-- `findOriginalFile` from `ClassAnnotationUtils.py`, enriched so that every
returned path carries the content of the file it denotes (`shutil.copy2`
later reads exactly that content).  The append-only accumulation loop of
the source is written as a flat map over the walk.  Roots whose path
contains the substring `"output"` are skipped; in hierarchical mode a file
matches when its parent folder is named `patientID`, in flat mode when the
`splitext` root of its name starts with `patientID`. -/
def findOriginalFileEntries (datasetPath : String) (tree : Dir) (patientID : String)
    (isHierarchical : Bool) : List (String × String) :=
  (walkFrom datasetPath tree).flatMap (fun rp =>
    if pyInStr "output" rp.1 then []
    else rp.2.flatMap (fun q =>
      match q.2 with
      | FSEntry.file content =>
        if isHierarchical then
          if pyBasename rp.1 = patientID then [(pathJoin rp.1 q.1, content)] else []
        else
          if pyStartsWith (pySplitextRoot q.1) patientID then
            [(pathJoin rp.1 q.1, content)]
          else []
      | FSEntry.dir _ => []))

/-- `findOriginalFile` exactly as in the source: the list of matching paths. -/
def findOriginalFile (datasetPath : String) (tree : Dir) (patientID : String)
    (isHierarchical : Bool) : List String :=
  (findOriginalFileEntries datasetPath tree patientID isHierarchical).map Prod.fst

/-! ## Hash computation (`compute_patient_hashes`)

`SimpleITK` image reading and SHA-256 are host facilities; they enter the
embedding as an oracle.  `readImage p = none` / `readSeries d = none` model
the `except Exception: pass` branches (a failed read). -/

structure HashOracle where
  isfile : String → Bool
  readImage : String → Option String
  readSeries : String → Option String
  sha256hex : String → String

/-- `compute_patient_hashes` from `ClassAnnotationUtils.py`. -/
def compute_patient_hashes (o : HashOracle) (fileList : List String) : List String :=
  let fl := fileList.filter (fun f => o.isfile f && !pyStartsWith (pyBasename f) ".")
  let dicomFiles := fl.filter (fun f => pyEndsWith (pyLower f) ".dcm")
  let otherFiles := fl.filter (fun f => !pyEndsWith (pyLower f) ".dcm")
  let dicomHashes :=
    match dicomFiles with
    | [] => []
    | f :: _ =>
      match o.readSeries (pyDirname f) with
      | some img => [o.sha256hex img]
      | none => []
  let hashList := dicomHashes ++ otherFiles.filterMap (fun f => (o.readImage f).map o.sha256hex)
  if hashList.isEmpty then [""] else [o.sha256hex (pyJoin "" hashList)]

/-! ## Classification data and the CSV ledger -/

/-- A classification value that is not `None`: an integer class or the
`"DUPLICATE"` marker. -/
inductive Label where
  | cls (n : Nat)
  | dup
deriving DecidableEq, Repr

/-- The in-memory classification map (`self.classificationData`): a Python
dict from patient ID to `int` class, `"DUPLICATE"` or `None`, in insertion
order. -/
abbrev CData := List (String × Option Label)

/-- Assoc-list lookup (Python dict read). -/
def lookupA {κ α : Type} [DecidableEq κ] (m : List (κ × α)) (k : κ) : Option α :=
  match m with
  | [] => none
  | (k2, v) :: rest => if k2 = k then some v else lookupA rest k

/-- Assoc-list write (Python dict assignment: replace in place or append). -/
def setA {κ α : Type} [DecidableEq κ] (m : List (κ × α)) (k : κ) (v : α) : List (κ × α) :=
  match m with
  | [] => [(k, v)]
  | (k2, v2) :: rest => if k2 = k then (k, v) :: rest else (k2, v2) :: setA rest k v

/-- The string written into the `Class` column
(`classLabel if classLabel is not None else ""`, with `str()` applied by
the CSV writer). -/
def labelField : Option Label → String
  | none => ""
  | some (.cls n) => pyStrOfNat n
  | some .dup => "DUPLICATE"

/-- `"|".join(sorted(compute_patient_hashes(findOriginalFile(...))))`:
the content-hash string a classified patient gets in the `Hash` column. -/
def patientHashString (o : HashOracle) (datasetPath : String) (tree : Dir)
    (patientID : String) (isHierarchical : Bool) : String :=
  pyJoin "|" (List.insertionSort (fun a b => pyStrLe a b = true)
    (compute_patient_hashes o (findOriginalFile datasetPath tree patientID isHierarchical)))

/-- The `Hash` column value of one row of `saveClassificationData`: empty
for `None` and `"DUPLICATE"` labels, the content hash otherwise. -/
def hashField (o : HashOracle) (datasetPath : String) (tree : Dir) (isHierarchical : Bool)
    (patientID : String) : Option Label → String
  | some (.cls _) => patientHashString o datasetPath tree patientID isHierarchical
  | _ => ""

/-- One data row written by `saveClassificationData`. -/
def csvRow (o : HashOracle) (datasetPath : String) (tree : Dir) (isHierarchical : Bool)
    (p : String × Option Label) : List String :=
  [p.1, labelField p.2, hashField o datasetPath tree isHierarchical p.1 p.2]

/-- Entry order used by `sorted(classificationData.items())`: dict items
with unique keys are ordered by key (Python string order, code points). -/
def keyLe (a b : String × Option Label) : Prop := pyStrLe a.1 b.1 = true

instance : DecidableRel keyLe := fun a b => instDecidableEqBool (pyStrLe a.1 b.1) true

/-- The rows of `classification_results.csv` as written by
`saveClassificationData`: the header, then one row per entry of the
classification map in `sorted(classificationData.items())` order.
(Python's stable sort and insertion sort produce the same sorted list on
unique keys.) -/
def saveCSVRows (o : HashOracle) (datasetPath : String) (tree : Dir) (isHierarchical : Bool)
    (classificationData : CData) : List (List String) :=
  ["Patient ID", "Class", "Hash"] ::
    (List.insertionSort keyLe classificationData).map
      (csvRow o datasetPath tree isHierarchical)

/-- The CSV file path used by `saveClassificationData`, `loadExistingCSV`,
`countPatientsPerClassFromCSV` and `loadHashesFromCSV`: under the dataset
in standard mode, under the selected output path in advanced mode. -/
def csvFilePath (mode : String) (datasetPath outputPath : String) : String :=
  pathJoin (pathJoin (if mode = "standard" then datasetPath else outputPath) OUTPUT_FOLDER)
    CSV_NAME

/-- The `Class` column parse of `loadExistingCSV`: digits become the
integer class, `"DUPLICATE"` stays, anything else becomes `None`. -/
def parseLabelField (raw : String) : Option Label :=
  if pyIsDigits raw then some (.cls (pyParseNat raw))
  else if raw = "DUPLICATE" then some .dup
  else none

/-- One row of the loop of `loadExistingCSV`: rows with at least two
fields contribute their stripped patient ID and parsed label. -/
def parseRowStep (m : CData) (row : List String) : CData :=
  if 2 ≤ row.length then
    setA m (pyStrip (row.getD 0 "")) (parseLabelField (pyStrip (row.getD 1 "")))
  else m

/-- The row loop of `loadExistingCSV`: skip the header, fold the rows. -/
def parseCSVRows (rows : List (List String)) : CData :=
  match rows with
  | [] => []
  | _hdr :: body => body.foldl parseRowStep []

/-- The trailing loop of `loadExistingCSV`: every dataset patient absent
from the parsed map is added with `None`. -/
def addUnclassified (m : CData) (allPatientIDs : List String) : CData :=
  allPatientIDs.foldl (fun m pid =>
    if (lookupA m pid).isSome then m else m ++ [(pid, none)]) m

/-- The parsed classification rows of the CSV file: empty when the file is
missing (or its read failed), the parsed row list otherwise. -/
def parsedOf (csv : Option (List (List String))) : CData :=
  match csv with
  | none => []
  | some rows => parseCSVRows rows

/-- `ClassAnnotationLogic.loadExistingCSV`, with the CSV file contents as
`none` (missing file) or the parsed row list. -/
def loadExistingCSV (csv : Option (List (List String))) (allPatientIDs : List String) :
    CData :=
  addUnclassified (parsedOf csv) allPatientIDs

/-! ## Model of the format guard in `ClassAnnotationWidget.loadDataset` -/

inductive LoadDatasetResult where
  | mixedFormatError
  | ok (classificationData : CData) (allPatientIDs : List String)

/-- The head of `loadDataset`: compute the two shape flags, reject mixed
datasets before anything is loaded, otherwise read the ledger and the
patient list. -/
def loadDatasetModel (tree : Dir) (csv : Option (List (List String))) : LoadDatasetResult :=
  let isFlat := isFlatDataset tree
  let isHier := isHierarchicalDataset tree
  if isFlat && isHier then .mixedFormatError
  else .ok (loadExistingCSV csv (getAllPatientIDs tree)) (getAllPatientIDs tree)

/-- The property C9 claims of the hash pipeline: a one-element result,
`[""]` exactly when no per-volume digest was produced, a single combined
digest otherwise, and a pipe-free `Hash` column string. -/
def ComputeHashesSpec (o : HashOracle) (fileList : List String) : Prop :=
  (compute_patient_hashes o fileList).length = 1 ∧
  (∀ l : List String, compute_patient_hashes o fileList = l → l = [""] ∨
    ∃ h, l = [o.sha256hex h])

/-- Hexadecimal-digit test (SHA-256 hex digests consist of these). -/
def hexDigitChar (c : Char) : Bool :=
  pyDigitChar c ||
    (decide ('a'.toNat ≤ c.toNat) && decide (c.toNat ≤ 'f'.toNat)) ||
    (decide ('A'.toNat ≤ c.toNat) && decide (c.toNat ≤ 'F'.toNat))

/-- The property C10 claims of `loadExistingCSV`: every dataset patient ID
is a key of the returned dict, bound to the parsed CSV label when the CSV
has a row for it and to `None` otherwise. -/
def LoadCSVSupersetSpec (csv : Option (List (List String))) (allPatientIDs : List String)
    (pid : String) : Prop :=
  lookupA (loadExistingCSV csv allPatientIDs) pid =
    some ((lookupA (parsedOf csv) pid).getD none)

/-! ### C1: content of the written ledger -/

/-- The property C1 claims of the written CSV: the header row, one row per
patient sorted strictly ascending by patient ID, a `Class` field that is
empty exactly for `None`, and a `Hash` field that is empty for `None` and
`DUPLICATE` and the content hash otherwise. -/
def SaveCSVSpec (o : HashOracle) (datasetPath : String) (tree : Dir) (isHierarchical : Bool)
    (cd : CData) : Prop :=
  ∃ body,
    saveCSVRows o datasetPath tree isHierarchical cd = ["Patient ID", "Class", "Hash"] :: body
    ∧ body.length = cd.length
    ∧ List.Pairwise (fun r s : List String =>
        pyStrLe (r.getD 0 "") (s.getD 0 "") = true ∧ r.getD 0 "" ≠ s.getD 0 "") body
    ∧ (∀ p ∈ cd, csvRow o datasetPath tree isHierarchical p ∈ body)
    ∧ (∀ r ∈ body, ∃ p ∈ cd, r = csvRow o datasetPath tree isHierarchical p)
    ∧ (∀ p ∈ cd, (labelField p.2 = "" ↔ p.2 = none))
    ∧ (∀ p ∈ cd,
        ((p.2 = none ∨ p.2 = some Label.dup) → hashField o datasetPath tree isHierarchical p.1 p.2 = "")
        ∧ ∀ n, p.2 = some (Label.cls n) →
            hashField o datasetPath tree isHierarchical p.1 p.2
              = patientHashString o datasetPath tree p.1 isHierarchical)

/-- The property C8 claims: flat-mode lookups match by name prefix, so the
file list of a patient ID contains the file list of every patient ID it is
a prefix of. -/
def FlatPrefixSpec (datasetPath : String) (tree : Dir) (pid1 pid2 : String) : Prop :=
  (∀ f, f ∈ getPatientFilesForReview datasetPath tree pid1 false ↔
    ∃ p ∈ tree, pyStartsWith p.1 pid1 = true ∧ endsWithSupported p.1 = true ∧
      f = pathJoin datasetPath p.1)
  ∧ (∀ f, f ∈ findOriginalFile datasetPath tree pid1 false ↔
    ∃ rp ∈ walkFrom datasetPath tree, pyInStr "output" rp.1 = false ∧
      ∃ q ∈ rp.2, (∃ content, q.2 = FSEntry.file content) ∧
        pyStartsWith (pySplitextRoot q.1) pid1 = true ∧ f = pathJoin rp.1 q.1)
  ∧ (∀ g ∈ getPatientFilesForReview datasetPath tree pid2 false,
      g ∈ getPatientFilesForReview datasetPath tree pid1 false)
  ∧ (∀ g ∈ findOriginalFile datasetPath tree pid2 false,
      g ∈ findOriginalFile datasetPath tree pid1 false)

/-! ### C3: duplicate detection in `loadNextPatient`

`ClassAnnotationWidget.loadNextPatient` iterates over the unclassified
patients; for each one with files it computes the combined hash string,
compares it with the hashes loaded from the ledger
(`loadHashesFromCSV`, reloaded each iteration but constant while the file
system is unchanged — here the `hashes` parameter), marks duplicates via
`markAsDuplicate` (which also persists through `saveClassificationData`;
the maps passed to it are recorded in `saves`), and stops at the first
patient whose images load (`loadOk`). -/

/-- Python `str(label)` for a value of the classification map. -/
def pyStrLabel : Option Label → String
  | none => "None"
  | some (.cls n) => pyStrOfNat n
  | some .dup => "DUPLICATE"

/-- The `unclassified` list comprehension of `loadNextPatient`:
`label is None or str(label).strip().lower() in ("", "none")`. -/
def unclassifiedOf (cd : CData) : List String :=
  (cd.filter (fun p => decide (p.2 = none) ||
    (pyLower (pyStrip (pyStrLabel p.2)) == "" || pyLower (pyStrip (pyStrLabel p.2)) == "none"))).map
    Prod.fst

/-- `currentHashString`: `"|".join(sorted(set(compute_patient_hashes(...))))`
(a Python `set` canonicalized by `sorted` is the sorted deduplication). -/
def currentHashString (o : HashOracle) (datasetPath : String) (tree : Dir) (isHier : Bool)
    (pid : String) : String :=
  pyJoin "|" (List.insertionSort (fun a b => pyStrLe a b = true)
    ((compute_patient_hashes o (findOriginalFile datasetPath tree pid isHier)).dedup))

/-- `ClassAnnotationWidget.isPatientDuplicate`: the first ledger entry with
a non-empty stripped hash equal to the current hash string. -/
def isPatientDuplicate (patientHashesFromCSV : List (String × String))
    (cur : String) : Option String :=
  (patientHashesFromCSV.find? (fun e => !(pyStrip e.2 == "") && cur == pyStrip e.2)).map Prod.fst

/-- Outcome of one `loadNextPatient` call: the final classification map,
the maps passed to `saveClassificationData`, the patient presented for
classification (if any), and the patients examined by the loop. -/
structure LoadNextOutcome where
  cd : CData
  saves : List CData
  loaded : Option String
  visited : List String

/-- The loop body of `loadNextPatient` over the remaining unclassified
patients. -/
def loadNextGo (o : HashOracle) (datasetPath : String) (tree : Dir) (isHier : Bool)
    (loadOk : String → Bool) (hashes : List (String × String)) :
    List String → CData → List CData → List String → LoadNextOutcome
  | [], cd, saves, vis => ⟨cd, saves, none, vis⟩
  | pid :: rest, cd, saves, vis =>
    if getPatientFilesForReview datasetPath tree pid isHier = [] then
      loadNextGo o datasetPath tree isHier loadOk hashes rest cd saves (vis ++ [pid])
    else
      match isPatientDuplicate hashes (currentHashString o datasetPath tree isHier pid) with
      | some _ =>
        let cd2 := setA cd pid (some Label.dup)
        loadNextGo o datasetPath tree isHier loadOk hashes rest cd2 (saves ++ [cd2])
          (vis ++ [pid])
      | none =>
        if loadOk pid then ⟨cd, saves, some pid, vis ++ [pid]⟩
        else loadNextGo o datasetPath tree isHier loadOk hashes rest cd saves (vis ++ [pid])

/-- `ClassAnnotationWidget.loadNextPatient`. -/
def loadNextPatientM (o : HashOracle) (datasetPath : String) (tree : Dir) (isHier : Bool)
    (loadOk : String → Bool) (hashes : List (String × String)) (cd : CData) :
    LoadNextOutcome :=
  loadNextGo o datasetPath tree isHier loadOk hashes (unclassifiedOf cd) cd [] []

/-- The property C3 claims of `loadNextPatient`: every examined patient
whose hash string matches a non-empty recorded hash is set to `DUPLICATE`,
a save carrying that label is issued, and the patient is not presented;
the patient actually presented never matches a recorded hash. -/
def LoadNextDupSpec (o : HashOracle) (datasetPath : String) (tree : Dir) (isHier : Bool)
    (loadOk : String → Bool) (hashes : List (String × String)) (cd : CData) : Prop :=
  (∀ p, (loadNextPatientM o datasetPath tree isHier loadOk hashes cd).loaded = some p →
    isPatientDuplicate hashes (currentHashString o datasetPath tree isHier p) = none)
  ∧ ∀ pid ∈ (loadNextPatientM o datasetPath tree isHier loadOk hashes cd).visited,
      getPatientFilesForReview datasetPath tree pid isHier ≠ [] →
      ∀ origID,
        isPatientDuplicate hashes (currentHashString o datasetPath tree isHier pid)
          = some origID →
        lookupA (loadNextPatientM o datasetPath tree isHier loadOk hashes cd).cd pid
            = some (some Label.dup)
        ∧ (∃ s ∈ (loadNextPatientM o datasetPath tree isHier loadOk hashes cd).saves,
            lookupA s pid = some (some Label.dup))
        ∧ (loadNextPatientM o datasetPath tree isHier loadOk hashes cd).loaded ≠ some pid

/-! ### C7: error handling around the CSV ledger and hashing

Each CSV-touching operation is modelled with an explicit I/O outcome and a
list of `slicer.util.errorDisplay` dialogs it shows.  `CSVSource.err`
stands for any exception raised while opening or reading the file;
`CSVSource.ok hdr body` is a successfully read file (the header row is
separate because an empty file raises `StopIteration` at `next(reader)`).
Every function is total: no exception propagates. -/

inductive CSVSource where
  | missing
  | ok (hdr : List String) (body : List (List String))
  | err (msg : String)

/-- `loadExistingCSV` with its dialog effects. -/
def loadExistingCSVEff (src : CSVSource) (allPatientIDs : List String) :
    CData × List String :=
  match src with
  | .missing => (addUnclassified [] allPatientIDs, [])
  | .ok hdr body => (addUnclassified (parseCSVRows (hdr :: body)) allPatientIDs, [])
  | .err e => (addUnclassified [] allPatientIDs, ["❌ Error while reading CSV: " ++ e])

/-- A value of the dict built by `loadExistingPatientsFromCSV`:
`int(classLabel) if classLabel and classLabel.isdigit() else classLabel`. -/
inductive PVal where
  | num (n : Nat)
  | raw (s : String)
  | noneV
deriving DecidableEq, Repr

/-- `csv.DictReader` cell access `row.get(col)`. -/
def dictRowGet (hdr row : List String) (col : String) : Option String :=
  match hdr.findIdx? (· == col) with
  | none => none
  | some i => row.get? i

/-- The row loop of `loadExistingPatientsFromCSV`. -/
def loadExistingPatientsRows (hdr : List String) (body : List (List String)) :
    List (String × PVal) :=
  body.foldl (fun m row =>
    match dictRowGet hdr row "Patient ID" with
    | none => m
    | some pid =>
      let v := match dictRowGet hdr row "Class" with
        | none => PVal.noneV
        | some cl => if cl ≠ "" && pyIsDigits cl then PVal.num (pyParseNat cl) else PVal.raw cl
      setA m pid v) []

/-- `loadExistingPatientsFromCSV` with its dialog effects. -/
def loadExistingPatientsFromCSVEff (src : CSVSource) : List (String × PVal) × List String :=
  match src with
  | .missing => ([], [])
  | .ok hdr body => (loadExistingPatientsRows hdr body, [])
  | .err e => ([], ["❌ Error reading CSV: " ++ e])

/-- The row loop of `countPatientsPerClassFromCSV`
(`classCounts[int(row[1])] = classCounts.get(int(row[1]), 0) + 1`). -/
def countRows (body : List (List String)) : List (Nat × Nat) :=
  body.foldl (fun counts row =>
    if 2 ≤ row.length && pyIsDigits (row.getD 1 "") then
      setA counts (pyParseNat (row.getD 1 ""))
        ((lookupA counts (pyParseNat (row.getD 1 ""))).getD 0 + 1)
    else counts) []

/-- `countPatientsPerClassFromCSV` with its dialog effects. -/
def countPatientsPerClassFromCSVEff (src : CSVSource) : List (Nat × Nat) × List String :=
  match src with
  | .missing => ([], [])
  | .ok _ body => (countRows body, [])
  | .err e => ([], ["❌ Error while reading CSV " ++ e])

/-- The CSV-writing part of `saveClassificationData` with its dialog
effects: `none` stands for an exception raised anywhere in the big `try`
block (file write or copy), answered by a dialog; otherwise the rows are
written. -/
def saveClassificationDataEff (writeErr : Option String) (o : HashOracle)
    (datasetPath : String) (tree : Dir) (isHierarchical : Bool) (cd : CData) :
    Option (List (List String)) × List String :=
  match writeErr with
  | some e => (none, ["❌ Error saving CSV: " ++ e])
  | none => (some (saveCSVRows o datasetPath tree isHierarchical cd), [])

/-- `compute_patient_hashes` with its dialog effects: the
`except Exception: pass` handlers swallow read errors without any
dialog. -/
def compute_patient_hashesEff (o : HashOracle) (fileList : List String) :
    List String × List String :=
  (compute_patient_hashes o fileList, [])

/-! ### C4: `movePatientIfReclassified`

`shutil.move(src, dst)` with an existing directory `dst` moves `src` into
it; with an existing file `dst` it replaces it; otherwise it renames.
`moveTargetInsert` is that case split for `dst = newClassFolder/patientID`. -/

def moveTargetInsert (tgt : Dir) (pid : String) (pEntry : FSEntry) : Dir :=
  match dirGet tgt pid with
  | some (FSEntry.dir inner) => dirSet tgt pid (FSEntry.dir (dirSet inner pid pEntry))
  | some (FSEntry.file _) => dirSet tgt pid pEntry
  | none => tgt ++ [(pid, pEntry)]

/-- `os.makedirs(newClassFolder)` when absent. -/
def moveMakeTarget (newName : String) (st : Dir) : Dir :=
  if (dirGet st newName).isSome then st else dirSet st newName (FSEntry.dir [])

/-- The `shutil.move` destination update on the target class folder. -/
def moveInsertTarget (pid newName : String) (pEntry : FSEntry) (st : Dir) : Dir :=
  match dirGet st newName with
  | some (FSEntry.dir tgt) => dirSet st newName (FSEntry.dir (moveTargetInsert tgt pid pEntry))
  | _ => st

/-- The acting branch of one `movePatientIfReclassified` iteration:
create the target if needed, move the patient folder over, and remove the
source class folder if it became empty. -/
def moveAction (pid newName classFolder : String) (st : Dir) (sub : Dir)
    (pEntry : FSEntry) : Dir :=
  if (dirRemove sub pid).isEmpty then
    dirRemove (moveInsertTarget pid newName pEntry
      (dirSet (moveMakeTarget newName st) classFolder (FSEntry.dir (dirRemove sub pid))))
      classFolder
  else
    moveInsertTarget pid newName pEntry
      (dirSet (moveMakeTarget newName st) classFolder (FSEntry.dir (dirRemove sub pid)))

/-- One iteration of the `movePatientIfReclassified` loop, for the listed
name `classFolder`: if it is a directory holding `patientID` and is not
the target class folder, run `moveAction`.  (`os.makedirs` on an existing
file and `shutil.move` onto a file-valued class folder would raise; both
are modelled as leaving the state alone and are excluded by the theorem
hypotheses.) -/
def moveStep (pid newName : String) (st : Dir) (classFolder : String) : Dir :=
  match dirGet st classFolder with
  | some (FSEntry.dir sub) =>
    match dirGet sub pid with
    | some pEntry =>
      if classFolder = newName then st
      else moveAction pid newName classFolder st sub pEntry
    | none => st
  | _ => st

/-- `movePatientIfReclassified` from `ClassAnnotationUtils.py`: iterate the
step over the snapshot of `os.listdir(outputFolder)`. -/
def movePatientIfReclassified (out : Dir) (patientID : String) (newClass : Nat) : Dir :=
  (out.map Prod.fst).foldl (moveStep patientID ("class" ++ pyStrOfNat newClass)) out

/-- The property C4 claims of `movePatientIfReclassified`: when the
patient folder sits under `classM` (and nowhere else) and the save carries
the different class `N`, the folder moves to `classN/<patientID>`
unchanged, `classM` loses it (and disappears when thereby empty), other
patients of `classN` and all other entries stay as they were. -/
def MoveReclassifiedSpec (out : Dir) (pid : String) (m n : Nat) : Prop :=
  ∀ sub pEntry,
    dirGet out ("class" ++ pyStrOfNat m) = some (FSEntry.dir sub) →
    dirGet sub pid = some pEntry →
    (∃ tgt, dirGet (movePatientIfReclassified out pid n) ("class" ++ pyStrOfNat n)
        = some (FSEntry.dir tgt)
      ∧ dirGet tgt pid = some pEntry
      ∧ ∀ q, q ≠ pid → dirGet tgt q = (match dirGet out ("class" ++ pyStrOfNat n) with
          | some (FSEntry.dir s) => dirGet s q
          | _ => none))
    ∧ (if (dirRemove sub pid).isEmpty
        then dirGet (movePatientIfReclassified out pid n) ("class" ++ pyStrOfNat m) = none
        else dirGet (movePatientIfReclassified out pid n) ("class" ++ pyStrOfNat m)
          = some (FSEntry.dir (dirRemove sub pid)))
    ∧ ∀ name, name ≠ "class" ++ pyStrOfNat m → name ≠ "class" ++ pyStrOfNat n →
        dirGet (movePatientIfReclassified out pid n) name = dirGet out name

/-! ### C2: the per-patient copy loop of `saveClassificationData` -/

/-- `os.makedirs(os.path.join(classFolder, patientID), exist_ok=True)`:
ensure the patient directory below the class directory.  (On an existing
file in the way `os.makedirs` raises; modelled as leaving the state.) -/
def ensureSubdir (st : Dir) (c p : String) : Dir :=
  match dirGet st c with
  | some (FSEntry.dir sub) =>
    if (dirGet sub p).isSome then st
    else dirSet st c (FSEntry.dir (sub ++ [(p, FSEntry.dir [])]))
  | some (FSEntry.file _) => st
  | none => dirSet st c (FSEntry.dir [(p, FSEntry.dir [])])

/-- `shutil.copy2(originalFilePath, destPath)` into
`classFolder/patientID/fileName`, reading the carried content.  (Copying
into a missing directory raises; modelled as leaving the state.) -/
def copyIntoPatient (st : Dir) (c p fname content : String) : Dir :=
  match dirGet st c with
  | some (FSEntry.dir sub) =>
    match dirGet sub p with
    | some (FSEntry.dir pf) =>
      dirSet st c (FSEntry.dir (dirSet sub p
        (FSEntry.dir (dirSet pf fname (FSEntry.file content)))))
    | _ => st
  | _ => st

/-- The body of the second loop of `saveClassificationData` for one
`(patientID, classLabel)` item: for an integer class, create the class
folder, run `movePatientIfReclassified`, create the patient folder and
copy every original file over; other labels are skipped. -/
def savePatientFilesStep (datasetPath : String) (dataset : Dir) (isHierarchical : Bool)
    (st : Dir) (entry : String × Option Label) : Dir :=
  match entry.2 with
  | some (Label.cls nc) =>
    let className := "class" ++ pyStrOfNat nc
    let st1 := moveMakeTarget className st
    let st2 := movePatientIfReclassified st1 entry.1 nc
    let st3 := ensureSubdir st2 className entry.1
    (findOriginalFileEntries datasetPath dataset entry.1 isHierarchical).foldl
      (fun s pc => copyIntoPatient s className entry.1 (pyBasename pc.1) pc.2) st3
  | _ => st

/-- The second loop of `saveClassificationData` over the classification
map. -/
def savePatientFolders (datasetPath : String) (dataset : Dir) (isHierarchical : Bool)
    (out : Dir) (cd : CData) : Dir :=
  cd.foldl (savePatientFilesStep datasetPath dataset isHierarchical) out

/-- The file-system effect of `saveClassificationData` on the pair
(dataset tree, output tree): files are only read from the dataset and
written below the output folder — a copy, not a move. -/
def saveClassificationFiles (datasetPath : String) (world : Dir × Dir)
    (isHierarchical : Bool) (cd : CData) : Dir × Dir :=
  (world.1, savePatientFolders datasetPath world.1 isHierarchical world.2 cd)

/-- Is the patient `pid` absent from this entry (when it is a folder)? -/
def entryPidFree (pid : String) : FSEntry → Bool
  | .file _ => true
  | .dir s => (dirGet s pid).isNone

/-- No top-level folder of the state contains `pid`. -/
def PFree (st : Dir) (pid : String) : Prop :=
  ∀ name s, dirGet st name = some (FSEntry.dir s) → dirGet s pid = none

/-- Every `class<k>` entry of the state is a directory. -/
def CShaped (st : Dir) : Prop :=
  ∀ k e, dirGet st ("class" ++ pyStrOfNat k) = some e → ∃ s, e = FSEntry.dir s

/-- The property C2 claims of `saveClassificationData`: for a patient
classified into class `n`, the file-system effect leaves the dataset tree
untouched and the output tree afterwards holds
`class<n>/<patientID>/<basename>` with the content of every original file
`findOriginalFile` returns for the patient. -/
def SaveCopiesSpec (datasetPath : String) (dataset : Dir) (isHierarchical : Bool)
    (out : Dir) (cd : CData) (pid : String) (n : Nat) : Prop :=
  (saveClassificationFiles datasetPath (dataset, out) isHierarchical cd).1 = dataset ∧
  ∃ subx pfx,
    dirGet (saveClassificationFiles datasetPath (dataset, out) isHierarchical cd).2
      ("class" ++ pyStrOfNat n) = some (FSEntry.dir subx) ∧
    dirGet subx pid = some (FSEntry.dir pfx) ∧
    ∀ pc ∈ findOriginalFileEntries datasetPath dataset pid isHierarchical,
      dirGet pfx (pyBasename pc.1) = some (FSEntry.file pc.2)

/-! ## Theorems -/

theorem natDigitsRevF_congr : ∀ (f1 f2 n : Nat), n < f1 → n < f2 →
    natDigitsRevF f1 n = natDigitsRevF f2 n := by
  intro f1
  induction f1 with
  | zero => intro f2 n h; omega
  | succ f ih =>
    intro f2 n h1 h2
    cases f2 with
    | zero => omega
    | succ g =>
      show natDigitsRevF (f + 1) n = natDigitsRevF (g + 1) n
      simp only [natDigitsRevF]
      split

      · rfl
      · next h10 =>
        have hdiv : n / 10 < n := Nat.div_lt_self (by omega) (by omega)
        rw [ih g (n / 10) (by omega) (by omega)]

/-- The recurrence `natDigitsRev` satisfies. -/
theorem natDigitsRev_unfold (n : Nat) :
    natDigitsRev n = if n < 10 then [digitChar n]
      else digitChar (n % 10) :: natDigitsRev (n / 10) := by
  show natDigitsRevF (n + 1) n = _
  simp only [natDigitsRevF]
  split
  · rfl
  · next h10 =>
    have hdiv : n / 10 < n := Nat.div_lt_self (by omega) (by omega)
    rw [natDigitsRevF_congr n (n / 10 + 1) (n / 10) (by omega) (by omega)]
    rfl

/-! ### Basic lemmas about the string primitives -/

theorem char_eq_of_toNat_eq {a b : Char} (h : a.toNat = b.toNat) : a = b :=
  Char.ext (UInt32.eq_of_val_eq (Fin.ext h))

theorem listIsPrefix_trans {a b c : List Char}
    (hba : listIsPrefix b a = true) (hcb : listIsPrefix c b = true) :
    listIsPrefix c a = true := by
  induction c generalizing a b with
  | nil => rfl
  | cons x cs ih =>
    cases b with
    | nil => simp [listIsPrefix] at hcb
    | cons y bs =>
      cases a with
      | nil => simp [listIsPrefix] at hba
      | cons z as2 =>
        simp only [listIsPrefix, Bool.and_eq_true, beq_iff_eq] at hba hcb ⊢
        exact ⟨hcb.1.trans hba.1, ih hba.2 hcb.2⟩

theorem pyStartsWith_trans {s p q : String}
    (h1 : pyStartsWith s p = true) (h2 : pyStartsWith p q = true) :
    pyStartsWith s q = true :=
  listIsPrefix_trans h1 h2

theorem listLexLe_total (a b : List Char) : listLexLe a b = true ∨ listLexLe b a = true := by
  induction a generalizing b with
  | nil => left; rfl
  | cons x xs ih =>
    cases b with
    | nil => right; rfl
    | cons y ys =>
      by_cases hxy : x = y
      · subst hxy
        simpa [listLexLe] using ih ys
      · have hne : y ≠ x := fun h => hxy h.symm
        have : x.toNat < y.toNat ∨ y.toNat < x.toNat := by
          rcases Nat.lt_trichotomy x.toNat y.toNat with h | h | h
          · exact Or.inl h
          · exact absurd (char_eq_of_toNat_eq h) hxy
          · exact Or.inr h
        rcases this with h | h
        · left; simp [listLexLe, hxy, h]
        · right; simp [listLexLe, hne, h]

theorem listLexLe_trans : ∀ {a b c : List Char},
    listLexLe a b = true → listLexLe b c = true → listLexLe a c = true
  | [], _, _, _, _ => rfl
  | x :: xs, y :: ys, z :: zs, hab, hbc => by
    by_cases hxy : x = y <;> by_cases hyz : y = z
    · subst hxy; subst hyz
      simp only [listLexLe, if_pos rfl] at hab hbc ⊢
      exact listLexLe_trans hab hbc
    · subst hxy
      simp only [listLexLe, if_pos rfl, if_neg hyz] at hab hbc ⊢
      simpa [hyz] using hbc
    · subst hyz
      simp only [listLexLe, if_pos rfl, if_neg hxy] at hab hbc ⊢
      simpa [hxy] using hab
    · have hxz : x ≠ z := by
        intro h
        subst h
        simp only [listLexLe, if_neg hxy] at hab
        simp only [listLexLe, if_neg hyz] at hbc
        have h1 : x.toNat < y.toNat := by simpa using hab
        have h2 : y.toNat < x.toNat := by simpa using hbc
        omega
      simp only [listLexLe, if_neg hxy] at hab
      simp only [listLexLe, if_neg hyz] at hbc
      have h1 : x.toNat < y.toNat := by simpa using hab
      have h2 : y.toNat < z.toNat := by simpa using hbc
      simp [listLexLe, hxz]
      omega

theorem digitChar_ne_sep {n : Nat} (h : n < 10) : digitChar n ≠ '|' := by
  interval_cases n <;> decide

theorem pyDigitChar_digitChar {n : Nat} (h : n < 10) : pyDigitChar (digitChar n) = true := by
  interval_cases n <;> decide

theorem digitChar_toNat {n : Nat} (h : n < 10) : (digitChar n).toNat = n + 48 := by
  interval_cases n <;> decide

theorem digitChar_not_space {n : Nat} (h : n < 10) : pySpaceChar (digitChar n) = false := by
  interval_cases n <;> decide

theorem natDigitsRev_all_digits (n : Nat) : ∀ c ∈ natDigitsRev n, pyDigitChar c = true := by
  induction n using Nat.strong_induction_on with
  | _ n ih =>
    rw [natDigitsRev_unfold]
    split
    · intro c hc
      rcases List.mem_singleton.mp hc with rfl
      exact pyDigitChar_digitChar (by omega)
    · intro c hc
      rcases List.mem_cons.mp hc with rfl | hc
      · exact pyDigitChar_digitChar (Nat.mod_lt _ (by omega))
      · exact ih (n / 10) (Nat.div_lt_self (by omega) (by omega)) c hc

theorem natDigitsRev_ne_nil (n : Nat) : natDigitsRev n ≠ [] := by
  rw [natDigitsRev_unfold]
  split <;> simp

/-- Folding the parse function over big-endian digits of `n`, starting from
accumulator `a`, yields `a * 10 ^ digits + n`. -/
theorem parse_foldl_digits (n : Nat) : ∀ a : Nat,
    ((natDigitsRev n).reverse.foldl (fun a c => a * 10 + (c.toNat - '0'.toNat)) a)
      = a * 10 ^ (natDigitsRev n).length + n := by
  induction n using Nat.strong_induction_on with
  | _ n ih =>
    intro a
    rw [natDigitsRev_unfold]
    split
    · next h =>
      simp [List.foldl, digitChar_toNat h]
    · next h =>
      have hlt : n / 10 < n := Nat.div_lt_self (by omega) (by omega)
      simp only [List.reverse_cons, List.foldl_append, List.foldl_cons, List.foldl_nil,
        List.length_cons]
      rw [ih (n / 10) hlt a]
      have hd : (digitChar (n % 10)).toNat - '0'.toNat = n % 10 := by
        rw [digitChar_toNat (Nat.mod_lt _ (by omega))]
        have h0 : '0'.toNat = 48 := by decide
        rw [h0]
        omega
      rw [hd]
      have : a * 10 ^ ((natDigitsRev (n / 10)).length + 1)
          = (a * 10 ^ (natDigitsRev (n / 10)).length) * 10 := by ring
      rw [this]
      omega

/-- `int(str(n)) = n`: parsing the decimal print of `n` gives `n` back. -/
theorem pyParseNat_pyStrOfNat (n : Nat) : pyParseNat (pyStrOfNat n) = n := by
  have := parse_foldl_digits n 0
  simpa [pyParseNat, pyStrOfNat] using this

theorem pyStrOfNat_isDigits (n : Nat) : pyIsDigits (pyStrOfNat n) = true := by
  have h1 := natDigitsRev_ne_nil n
  have h2 := natDigitsRev_all_digits n
  simp only [pyIsDigits, pyStrOfNat, Bool.and_eq_true, List.all_eq_true]
  constructor
  · simpa [List.isEmpty_iff] using fun h => h1 (by simpa using h)
  · intro c hc
    exact h2 c (List.mem_reverse.mp hc)

theorem pyStrOfNat_injective {m n : Nat} (h : pyStrOfNat m = pyStrOfNat n) : m = n := by
  have := congrArg pyParseNat h
  rwa [pyParseNat_pyStrOfNat, pyParseNat_pyStrOfNat] at this

theorem pyStrOfNat_ne_empty (n : Nat) : pyStrOfNat n ≠ "" := by
  intro h
  exact natDigitsRev_ne_nil n (by
    have := congrArg String.data h
    simpa [pyStrOfNat] using this)

theorem pyStrOfNat_ne_DUPLICATE (n : Nat) : pyStrOfNat n ≠ "DUPLICATE" := by
  intro h
  have hd := pyStrOfNat_isDigits n
  rw [h] at hd
  simp +decide [pyIsDigits] at hd

/-- Stripping does not change an all-digit string. -/
theorem pyStrip_of_no_space {s : String}
    (h : ∀ c ∈ s.data, pySpaceChar c = false) : pyStrip s = s := by
  have hrev : ∀ c ∈ s.data.reverse, pySpaceChar c = false := fun c hc =>
    h c (List.mem_reverse.mp hc)
  have h1 : s.data.dropWhile pySpaceChar = s.data := by
    cases hs : s.data with
    | nil => simp
    | cons a l =>
      have : pySpaceChar a = false := h a (by rw [hs]; exact List.mem_cons_self a l)
      simp [List.dropWhile, this, hs]
  have h2 : s.data.reverse.dropWhile pySpaceChar = s.data.reverse := by
    cases hs : s.data.reverse with
    | nil => simp
    | cons a l =>
      have : pySpaceChar a = false := hrev a (by rw [hs]; exact List.mem_cons_self a l)
      simp [List.dropWhile, this, hs]
  cases s with
  | mk data =>
    simp only [pyStrip, pyStripList] at *
    rw [h1, h2]
    simp

theorem pySpaceChar_of_digit {c : Char} (h : pyDigitChar c = true) : pySpaceChar c = false := by
  have h1 : 48 ≤ c.toNat ∧ c.toNat ≤ 57 := by
    have h0 : ('0').toNat = 48 := by decide
    have h9 : ('9').toNat = 57 := by decide
    simpa [pyDigitChar, h0, h9] using h
  simp only [pySpaceChar, Bool.or_eq_false_iff, beq_eq_false_iff_ne]
  refine ⟨⟨⟨⟨⟨?_, ?_⟩, ?_⟩, ?_⟩, ?_⟩, ?_⟩ <;> rintro rfl <;> revert h1 <;> decide

theorem pyStrip_pyStrOfNat (n : Nat) : pyStrip (pyStrOfNat n) = pyStrOfNat n := by
  refine pyStrip_of_no_space fun c hc => ?_
  have hd := natDigitsRev_all_digits n c (by
    have : c ∈ (natDigitsRev n).reverse := by simpa [pyStrOfNat] using hc
    exact List.mem_reverse.mp this)
  exact pySpaceChar_of_digit hd

theorem dirGet_dirSet_self (d : Dir) (k : String) (v : FSEntry) :
    dirGet (dirSet d k v) k = some v := by
  induction d with
  | nil => simp [dirSet, dirGet]
  | cons p rest ih =>
    obtain ⟨a, b⟩ := p
    by_cases h : a = k
    · simp [dirSet, dirGet, h]
    · simp [dirSet, dirGet, h, ih]

theorem dirGet_dirSet_ne (d : Dir) {k k2 : String} (v : FSEntry) (h : k2 ≠ k) :
    dirGet (dirSet d k v) k2 = dirGet d k2 := by
  have hk : ¬(k = k2) := fun hh => h hh.symm
  induction d with
  | nil => simp [dirSet, dirGet, hk]
  | cons p rest ih =>
    obtain ⟨a, b⟩ := p
    by_cases hp : a = k
    · subst hp
      simp [dirSet, dirGet, hk]
    · simp [dirSet, dirGet, hp, ih]

theorem dirGet_dirRemove_self (d : Dir) (k : String) :
    dirGet (dirRemove d k) k = none := by
  induction d with
  | nil => rfl
  | cons p rest ih =>
    obtain ⟨a, b⟩ := p
    by_cases h : a = k
    · simpa [dirRemove, h] using ih
    · simp [dirRemove, h, dirGet, ih]

theorem dirGet_dirRemove_ne (d : Dir) {k k2 : String} (h : k2 ≠ k) :
    dirGet (dirRemove d k) k2 = dirGet d k2 := by
  induction d with
  | nil => rfl
  | cons p rest ih =>
    obtain ⟨a, b⟩ := p
    by_cases hp : a = k
    · have hp2 : ¬(a = k2) := by rw [hp]; exact fun hh => h hh.symm
      simp [dirRemove, hp, dirGet, hp2, ih, Ne.symm h]
    · by_cases hq : a = k2
      · simp [dirRemove, hp, dirGet, hq, h]
      · simp [dirRemove, hp, dirGet, hq, ih]

theorem dirGet_append_of_none {a b : Dir} {k : String} (h : dirGet a k = none) :
    dirGet (a ++ b) k = dirGet b k := by
  induction a with
  | nil => rfl
  | cons p rest ih =>
    obtain ⟨x, y⟩ := p
    by_cases hp : x = k
    · simp [dirGet, hp] at h
    · simp only [dirGet, if_neg hp] at h
      simpa [dirGet, hp] using ih h

theorem dirGet_append_of_some {a : Dir} (b : Dir) {k : String} {v : FSEntry}
    (h : dirGet a k = some v) : dirGet (a ++ b) k = some v := by
  induction a with
  | nil => simp [dirGet] at h
  | cons p rest ih =>
    obtain ⟨x, y⟩ := p
    by_cases hp : x = k
    · simp only [dirGet, if_pos hp] at h
      simp [dirGet, hp, h]
    · simp only [dirGet, if_neg hp] at h
      simpa [dirGet, hp] using ih h

theorem lookupA_setA_self {κ α : Type} [DecidableEq κ] (m : List (κ × α)) (k : κ) (v : α) :
    lookupA (setA m k v) k = some v := by
  induction m with
  | nil => simp [setA, lookupA]
  | cons p rest ih =>
    obtain ⟨a, b⟩ := p
    by_cases h : a = k
    · simp [setA, lookupA, h]
    · simp [setA, lookupA, h, ih]

theorem lookupA_setA_ne {κ α : Type} [DecidableEq κ] (m : List (κ × α)) {k k2 : κ} (v : α)
    (h : k2 ≠ k) : lookupA (setA m k v) k2 = lookupA m k2 := by
  have hk : ¬(k = k2) := fun hh => h hh.symm
  induction m with
  | nil => simp [setA, lookupA, hk]
  | cons p rest ih =>
    obtain ⟨a, b⟩ := p
    by_cases hp : a = k
    · subst hp
      simp [setA, lookupA, hk]
    · simp [setA, lookupA, hp, ih]

instance : IsTotal (String × Option Label) keyLe :=
  ⟨fun a b => listLexLe_total a.1.data b.1.data⟩

instance : IsTrans (String × Option Label) keyLe :=
  ⟨fun _ _ _ hab hbc => listLexLe_trans hab hbc⟩

/-! ## Assoc-list helper lemmas -/

theorem lookupA_append_of_none {κ α : Type} [DecidableEq κ] {a b : List (κ × α)} {k : κ}
    (h : lookupA a k = none) : lookupA (a ++ b) k = lookupA b k := by
  induction a with
  | nil => rfl
  | cons p rest ih =>
    obtain ⟨x, y⟩ := p
    by_cases hp : x = k
    · simp [lookupA, hp] at h
    · simp only [lookupA, if_neg hp] at h
      simpa [lookupA, hp] using ih h

theorem lookupA_append_of_some {κ α : Type} [DecidableEq κ] {a : List (κ × α)} (b : List (κ × α))
    {k : κ} {v : α} (h : lookupA a k = some v) : lookupA (a ++ b) k = some v := by
  induction a with
  | nil => simp [lookupA] at h
  | cons p rest ih =>
    obtain ⟨x, y⟩ := p
    by_cases hp : x = k
    · simp only [lookupA, if_pos hp] at h
      simp [lookupA, hp, h]
    · simp only [lookupA, if_neg hp] at h
      simpa [lookupA, hp] using ih h

theorem lookupA_eq_none_of_not_mem {κ α : Type} [DecidableEq κ] {m : List (κ × α)} {k : κ}
    (h : k ∉ m.map Prod.fst) : lookupA m k = none := by
  induction m with
  | nil => rfl
  | cons p rest ih =>
    obtain ⟨x, y⟩ := p
    simp only [List.map_cons, List.mem_cons, not_or] at h
    have hx : ¬(x = k) := fun hh => h.1 hh.symm
    simp [lookupA, hx, ih h.2]

theorem not_mem_of_lookupA_eq_none {κ α : Type} [DecidableEq κ] {m : List (κ × α)} {k : κ}
    (h : lookupA m k = none) : k ∉ m.map Prod.fst := by
  induction m with
  | nil => simp
  | cons p rest ih =>
    obtain ⟨x, y⟩ := p
    by_cases hp : x = k
    · simp [lookupA, hp] at h
    · simp only [lookupA, if_neg hp] at h
      have hkx : ¬(k = x) := fun hh => hp hh.symm
      simp [List.map_cons, ih h, hkx]

theorem lookupA_of_mem_nodup {κ α : Type} [DecidableEq κ] {m : List (κ × α)} {k : κ} {v : α}
    (hm : (k, v) ∈ m) (hn : (m.map Prod.fst).Nodup) : lookupA m k = some v := by
  induction m with
  | nil => simp at hm
  | cons p rest ih =>
    obtain ⟨x, y⟩ := p
    simp only [List.map_cons, List.nodup_cons] at hn
    rcases List.mem_cons.mp hm with h | h
    · cases h
      simp [lookupA]
    · have hxk : x ≠ k := by
        intro hh
        subst hh
        exact hn.1 (List.mem_map.mpr ⟨(x, v), h, rfl⟩)
      simp [lookupA, hxk, ih h hn.2]

theorem lookupA_addUnclassified_of_some {m : CData} {k : String} {v : Option Label}
    (pids : List String) (h : lookupA m k = some v) :
    lookupA (addUnclassified m pids) k = some v := by
  induction pids generalizing m with
  | nil => exact h
  | cons p rest ih =>
    simp only [addUnclassified, List.foldl_cons]
    by_cases hp : (lookupA m p).isSome
    · simp only [if_pos hp]
      exact ih h
    · simp only [if_neg hp]
      exact ih (lookupA_append_of_some _ h)

theorem lookupA_addUnclassified_of_none {m : CData} {k : String}
    {pids : List String} (hmem : k ∈ pids) (h : lookupA m k = none) :
    lookupA (addUnclassified m pids) k = some none := by
  induction pids generalizing m with
  | nil => simp at hmem
  | cons p rest ih =>
    simp only [addUnclassified, List.foldl_cons]
    by_cases hp : p = k
    · subst hp
      rw [if_neg (by simp [h])]
      have h2 : lookupA (m ++ [(p, (none : Option Label))]) p = some none := by
        rw [lookupA_append_of_none h]
        simp [lookupA]
      exact lookupA_addUnclassified_of_some rest h2
    · have hmem2 : k ∈ rest := by
        rcases List.mem_cons.mp hmem with hh | hh
        · exact absurd hh.symm hp
        · exact hh
      by_cases hs : (lookupA m p).isSome
      · rw [if_pos hs]
        exact ih hmem2 h
      · rw [if_neg hs]
        refine ih hmem2 ?_
        rw [lookupA_append_of_none h]
        simp [lookupA, hp]

/-! ## Claim theorems -/

/-- C5: `isFlatDataset` holds iff the dataset root directly contains a
non-hidden plain file other than `classification_results.csv` with a
supported extension; `isHierarchicalDataset` holds iff some immediate
subdirectory contains an entry with a supported extension; and a dataset
satisfying both is rejected by `loadDataset` with an error before any
patient is loaded. -/
theorem c5_dataset_shape_inference (tree : Dir) (csv : Option (List (List String))) :
    (isFlatDataset tree = true ↔ ∃ p ∈ tree, p.2.isFileE = true ∧
      pyStartsWith p.1 "." = false ∧ p.1 ≠ CSV_NAME ∧ endsWithSupported p.1 = true)
    ∧ (isHierarchicalDataset tree = true ↔ ∃ p ∈ tree, ∃ sub,
      p.2 = FSEntry.dir sub ∧ ∃ q ∈ sub, endsWithSupported q.1 = true)
    ∧ (isFlatDataset tree = true → isHierarchicalDataset tree = true →
      loadDatasetModel tree csv = .mixedFormatError) := by
  refine ⟨?_, ?_, ?_⟩
  · simp only [isFlatDataset, List.any_eq_true, List.mem_filter, Bool.and_eq_true,
      Bool.not_eq_true', decide_eq_true_eq]
    constructor
    · rintro ⟨p, ⟨hp, hf, hh⟩, he⟩
      exact ⟨p, hp, hf.1, hf.2, hh, he⟩
    · rintro ⟨p, hp, h1, h2, h3, h4⟩
      exact ⟨p, ⟨hp, ⟨h1, h2⟩, h3⟩, h4⟩
  · simp only [isHierarchicalDataset, List.any_eq_true]
    constructor
    · rintro ⟨p, hp, hmatch⟩
      match hsub : p.2 with
      | .dir sub =>
        rw [hsub] at hmatch
        simp only [List.any_eq_true] at hmatch
        obtain ⟨q, hq, he⟩ := hmatch
        exact ⟨p, hp, sub, hsub, q, hq, he⟩
      | .file c => rw [hsub] at hmatch; simp at hmatch
    · rintro ⟨p, hp, sub, hsub, q, hq, he⟩
      refine ⟨p, hp, ?_⟩
      rw [hsub]
      simp only [List.any_eq_true]
      exact ⟨q, hq, he⟩
  · intro hf hh
    simp [loadDatasetModel, hf, hh]

/-- Witness for C5 at a dataset holding both a flat-style file and a
patient folder. -/
theorem c5_dataset_shape_inference_witness :
    isFlatDataset [("a.nii", .file ""), ("p1", .dir [("x.nrrd", .file "")])] = true ∧
    isHierarchicalDataset [("a.nii", .file ""), ("p1", .dir [("x.nrrd", .file "")])] = true ∧
    loadDatasetModel [("a.nii", .file ""), ("p1", .dir [("x.nrrd", .file "")])] none
      = .mixedFormatError :=
  ⟨by decide, by decide,
    (c5_dataset_shape_inference
      [("a.nii", .file ""), ("p1", .dir [("x.nrrd", .file "")])] none).2.2
      (by decide) (by decide)⟩

/-- `compute_patient_hashes` always returns exactly one string, either `""`
or one combined digest. -/
theorem compute_patient_hashes_spec (o : HashOracle) (fileList : List String) :
    ComputeHashesSpec o fileList := by
  constructor
  · simp only [compute_patient_hashes]
    split <;> rfl
  · intro l hl
    simp only [compute_patient_hashes] at hl
    split at hl
    · exact Or.inl hl.symm
    · exact Or.inr ⟨_, hl.symm⟩

theorem hexDigitChar_ne_pipe {c : Char} (h : hexDigitChar c = true) : c ≠ '|' := by
  intro hc
  subst hc
  revert h
  decide

/-- Under the fact that SHA-256 digests are hexadecimal, the `Hash` column
string built from the patient's hashes never contains the `"|"`
separator. -/
theorem hash_column_pipe_free (o : HashOracle) (datasetPath : String) (tree : Dir)
    (patientID : String) (isHierarchical : Bool)
    (hsha : ∀ s, ∀ c ∈ (o.sha256hex s).data, hexDigitChar c = true) :
    ∀ c ∈ (patientHashString o datasetPath tree patientID isHierarchical).data,
      c ≠ '|' := by
  have hone := (compute_patient_hashes_spec o
    (findOriginalFile datasetPath tree patientID isHierarchical)).2
  intro c hc
  rcases hone _ rfl with h | ⟨h0, h⟩
  · rw [patientHashString, h] at hc
    simp only [List.insertionSort, List.orderedInsert, pyJoin, List.foldl_nil] at hc
    simp at hc
  · rw [patientHashString, h] at hc
    simp only [List.insertionSort, List.orderedInsert, pyJoin, List.foldl_nil] at hc
    exact hexDigitChar_ne_pipe (hsha h0 c hc)

/-- C9: `compute_patient_hashes` always returns a singleton list (`[""]`
when nothing was readable, one combined digest otherwise), so the `Hash`
column of the ledger holds at most one hash and — digests being
hexadecimal — never contains the `"|"` join separator. -/
theorem c9_compute_patient_hashes_singleton (o : HashOracle) (fileList : List String)
    (datasetPath : String) (tree : Dir) (patientID : String) (isHierarchical : Bool)
    (hsha : ∀ s, ∀ c ∈ (o.sha256hex s).data, hexDigitChar c = true) :
    ComputeHashesSpec o fileList ∧
    ∀ c ∈ (patientHashString o datasetPath tree patientID isHierarchical).data, c ≠ '|' :=
  ⟨compute_patient_hashes_spec o fileList,
    hash_column_pipe_free o datasetPath tree patientID isHierarchical hsha⟩

/-- Witness for C9: a failing reader yields `[""]` and an empty, pipe-free
hash column. -/
theorem c9_witness :
    (∀ _s : String, ∀ c ∈ (("ab" : String)).data, hexDigitChar c = true) ∧
    (ComputeHashesSpec ⟨fun _ => true, fun _ => none, fun _ => none, fun _ => "ab"⟩
      ["/ds/x.nii"] ∧
      ∀ c ∈ (patientHashString ⟨fun _ => true, fun _ => none, fun _ => none, fun _ => "ab"⟩
        "/ds" [("x.nii", .file "v")] "x" false).data, c ≠ '|') :=
  ⟨fun _ => (by decide : ∀ c ∈ (("ab" : String)).data, hexDigitChar c = true),
    c9_compute_patient_hashes_singleton
      ⟨fun _ => true, fun _ => none, fun _ => none, fun _ => "ab"⟩ ["/ds/x.nii"]
      "/ds" [("x.nii", .file "v")] "x" false
      (fun _ => (by decide : ∀ c ∈ (("ab" : String)).data, hexDigitChar c = true))⟩

/-- C10: the dict returned by `loadExistingCSV` has an entry for every
patient ID of the dataset, `None` for patients missing from the CSV (also
when the file does not exist); a recorded label that is neither a digit
string nor `DUPLICATE` parses to `None`. -/
theorem c10_loadExistingCSV_superset (csv : Option (List (List String)))
    (allPatientIDs : List String) (pid : String) (hpid : pid ∈ allPatientIDs) :
    LoadCSVSupersetSpec csv allPatientIDs pid ∧
    (∀ raw, pyIsDigits raw = false → raw ≠ "DUPLICATE" → parseLabelField raw = none) := by
  constructor
  · unfold LoadCSVSupersetSpec loadExistingCSV
    cases hl : lookupA (parsedOf csv) pid with
    | none => simpa using lookupA_addUnclassified_of_none hpid hl
    | some v => simpa using lookupA_addUnclassified_of_some _ hl
  · intro raw h1 h2
    simp [parseLabelField, h1, h2]

/-- Witness for C10 on a CSV with one valid row, one invalid label and one
patient that only exists in the dataset. -/
theorem c10_witness :
    "p2" ∈ ["p1", "p2", "p3"] ∧
    (LoadCSVSupersetSpec
      (some [["Patient ID", "Class", "Hash"], ["p1", "2", "h"], ["p3", "bogus", ""]])
      ["p1", "p2", "p3"] "p2" ∧
    (∀ raw, pyIsDigits raw = false → raw ≠ "DUPLICATE" → parseLabelField raw = none)) :=
  ⟨by decide,
    c10_loadExistingCSV_superset
      (some [["Patient ID", "Class", "Hash"], ["p1", "2", "h"], ["p3", "bogus", ""]])
      ["p1", "p2", "p3"] "p2" (by decide)⟩

/-! ### Round-trip lemmas for the ledger -/

theorem pyStrip_empty : pyStrip "" = "" := by decide

theorem pyStrip_DUPLICATE : pyStrip "DUPLICATE" = "DUPLICATE" := by decide

/-- Parsing a written `Class` field recovers the label. -/
theorem parseLabelField_labelField (lbl : Option Label) :
    parseLabelField (pyStrip (labelField lbl)) = lbl := by
  match lbl with
  | none => decide
  | some .dup => decide
  | some (.cls n) =>
    simp only [labelField, pyStrip_pyStrOfNat, parseLabelField, pyStrOfNat_isDigits,
      if_pos, pyParseNat_pyStrOfNat]

theorem setA_eq_append_of_none {κ α : Type} [DecidableEq κ] {m : List (κ × α)} {k : κ} (v : α)
    (h : lookupA m k = none) : setA m k v = m ++ [(k, v)] := by
  induction m with
  | nil => rfl
  | cons p rest ih =>
    obtain ⟨x, y⟩ := p
    by_cases hp : x = k
    · simp [lookupA, hp] at h
    · simp only [lookupA, if_neg hp] at h
      simp [setA, hp, ih h]

/-- Folding dict assignments of fresh, pairwise-distinct keys over `m`
appends the entries in order. -/
theorem foldl_setA_fresh (l : CData) : ∀ m : CData,
    (∀ p ∈ l, lookupA m p.1 = none) → (l.map Prod.fst).Nodup →
    l.foldl (fun m p => setA m p.1 p.2) m = m ++ l := by
  induction l with
  | nil => intro m _ _; simp
  | cons p rest ih =>
    intro m hfresh hnodup
    simp only [List.map_cons, List.nodup_cons] at hnodup
    have h1 : setA m p.1 p.2 = m ++ [p] := setA_eq_append_of_none _ (hfresh p (by simp))
    have hfresh2 : ∀ q ∈ rest, lookupA (m ++ [p]) q.1 = none := by
      intro q hq
      rw [lookupA_append_of_none (hfresh q (by simp [hq]))]
      have hne : ¬(p.1 = q.1) := by
        intro hh
        exact hnodup.1 (hh ▸ List.mem_map.mpr ⟨q, hq, rfl⟩)
      simp [lookupA, hne]
    calc (p :: rest).foldl (fun m p => setA m p.1 p.2) m
        = rest.foldl (fun m p => setA m p.1 p.2) (m ++ [p]) := by
          simp only [List.foldl_cons, h1]
      _ = (m ++ [p]) ++ rest := ih (m ++ [p]) hfresh2 hnodup.2
      _ = m ++ (p :: rest) := by simp

/-- Reading back one written row is a dict assignment of the original
entry, provided the patient ID carries no outer whitespace. -/
theorem parseRowStep_csvRow (o : HashOracle) (datasetPath : String) (tree : Dir)
    (isHierarchical : Bool) (m : CData) (p : String × Option Label)
    (h : pyStrip p.1 = p.1) :
    parseRowStep m (csvRow o datasetPath tree isHierarchical p) = setA m p.1 p.2 := by
  simp only [parseRowStep, csvRow, List.length_cons, List.getD]
  rw [if_pos (by omega)]
  simp only [List.get?, Option.getD_some]
  rw [h, parseLabelField_labelField]

theorem foldl_parseRowStep_map (o : HashOracle) (datasetPath : String) (tree : Dir)
    (isHierarchical : Bool) (l : CData) :
    ∀ m : CData, (∀ p ∈ l, pyStrip p.1 = p.1) →
    (l.map (csvRow o datasetPath tree isHierarchical)).foldl parseRowStep m
      = l.foldl (fun m p => setA m p.1 p.2) m := by
  induction l with
  | nil => intro m _; rfl
  | cons p rest ih =>
    intro m hstrip
    simp only [List.map_cons, List.foldl_cons]
    rw [parseRowStep_csvRow o datasetPath tree isHierarchical m p (hstrip p (by simp))]
    exact ih _ (fun q hq => hstrip q (by simp [hq]))

/-- Parsing the file written by `saveClassificationData` yields exactly the
sorted classification map. -/
theorem parseCSVRows_saveCSVRows (o : HashOracle) (datasetPath : String) (tree : Dir)
    (isHierarchical : Bool) (cd : CData)
    (hstrip : ∀ p ∈ cd, pyStrip p.1 = p.1) (hkeys : (cd.map Prod.fst).Nodup) :
    parseCSVRows (saveCSVRows o datasetPath tree isHierarchical cd)
      = List.insertionSort keyLe cd := by
  have hsortmem : ∀ p ∈ List.insertionSort keyLe cd, pyStrip p.1 = p.1 := by
    intro p hp
    exact hstrip p ((List.mem_insertionSort keyLe).mp hp)
  have hsortnodup : ((List.insertionSort keyLe cd).map Prod.fst).Nodup :=
    (((List.perm_insertionSort keyLe cd).map Prod.fst).symm).nodup hkeys
  simp only [saveCSVRows, parseCSVRows]
  rw [foldl_parseRowStep_map o datasetPath tree isHierarchical _ _ hsortmem]
  simpa using foldl_setA_fresh _ [] (fun p _ => rfl) hsortnodup

theorem takeWhile_of_all {p : Char → Bool} {l : List Char} (h : ∀ x ∈ l, p x = true) :
    l.takeWhile p = l := by
  induction l with
  | nil => rfl
  | cons c t ih =>
    rw [List.takeWhile_cons, if_pos (h c (by simp))]
    rw [ih (fun x hx => h x (by simp [hx]))]

theorem takeWhile_append_stop {p : Char → Bool} {l1 : List Char} {c : Char} (t : List Char)
    (h1 : ∀ x ∈ l1, p x = true) (hc : p c = false) :
    (l1 ++ c :: t).takeWhile p = l1 := by
  induction l1 with
  | nil => simp [List.takeWhile_cons, hc]
  | cons a l ih =>
    simp only [List.cons_append, List.takeWhile_cons, if_pos (h1 a (by simp))]
    rw [ih (fun x hx => h1 x (by simp [hx]))]

/-- The written ledger file is named `classification_results.csv` whatever
the output root is. -/
theorem pyBasename_csvFilePath (mode datasetPath outputPath : String) :
    pyBasename (csvFilePath mode datasetPath outputPath) = CSV_NAME := by
  have hname : ∀ x ∈ (CSV_NAME : String).data.reverse, decide (x ≠ '/') = true := by decide
  have hstart : pyStartsWith CSV_NAME "/" = false := by decide
  unfold csvFilePath
  set a := pathJoin (if mode = "standard" then datasetPath else outputPath) OUTPUT_FOLDER with ha
  unfold pathJoin
  rw [hstart]
  simp only [Bool.false_eq_true, if_false]
  by_cases hempty : a = ""
  · rw [if_pos (by simp [hempty]), hempty]
    decide
  · by_cases hslash : pyEndsWith a "/" = true
    · rw [if_pos (by simp [hempty, hslash])]
      have hhead : ∃ t, a.data.reverse = '/' :: t := by
        unfold pyEndsWith at hslash
        cases har : a.data.reverse with
        | nil => rw [har] at hslash; simp [listIsPrefix] at hslash
        | cons x xs =>
          rw [har] at hslash
          simp only [listIsPrefix, Bool.and_eq_true, beq_iff_eq] at hslash
          exact ⟨xs, by rw [hslash.1.symm]⟩
      obtain ⟨t, ht⟩ := hhead
      unfold pyBasename
      rw [String.data_append, List.reverse_append, ht]
      rw [takeWhile_append_stop t hname (by decide)]
      simp [CSV_NAME]
    · rw [if_neg (by simp [hempty, hslash])]
      unfold pyBasename
      rw [String.data_append, String.data_append, List.reverse_append, List.reverse_append]
      have : (("/" : String)).data.reverse = ['/'] := by decide
      rw [this]
      simp only [List.append_assoc, List.singleton_append]
      rw [takeWhile_append_stop _ hname (by decide)]
      simp [CSV_NAME]

/-- C1: `saveClassificationData` writes `classification_results.csv` under
the output folder with exactly the header then one row per patient in
ascending patient-ID order; the `Class` field is empty iff the label is
`None`; the `Hash` field is empty for `None`/`DUPLICATE` and is the
content hash for integer classes. -/
theorem c1_saveClassificationData_csv (o : HashOracle) (mode datasetPath outputPath : String)
    (tree : Dir) (isHierarchical : Bool) (cd : CData)
    (hkeys : (cd.map Prod.fst).Nodup) :
    SaveCSVSpec o datasetPath tree isHierarchical cd ∧
    pyBasename (csvFilePath mode datasetPath outputPath) = CSV_NAME := by
  refine ⟨?_, pyBasename_csvFilePath mode datasetPath outputPath⟩
  refine ⟨(List.insertionSort keyLe cd).map (csvRow o datasetPath tree isHierarchical),
    rfl, ?_, ?_, ?_, ?_, ?_, ?_⟩
  · rw [List.length_map, List.length_insertionSort]
  · rw [List.pairwise_map]
    have hsorted : List.Pairwise keyLe (List.insertionSort keyLe cd) :=
      List.sorted_insertionSort keyLe cd
    have hnodup : ((List.insertionSort keyLe cd).map Prod.fst).Nodup :=
      (((List.perm_insertionSort keyLe cd).map Prod.fst).symm).nodup hkeys
    have hne : List.Pairwise (fun a b : String × Option Label => a.1 ≠ b.1)
        (List.insertionSort keyLe cd) := List.pairwise_map.mp hnodup
    refine (hsorted.and hne).imp ?_
    rintro a b ⟨hle, hab⟩
    exact ⟨hle, hab⟩
  · intro p hp
    exact List.mem_map.mpr ⟨p, (List.mem_insertionSort keyLe).mpr hp, rfl⟩
  · intro r hr
    obtain ⟨p, hp, hpr⟩ := List.mem_map.mp hr
    exact ⟨p, (List.mem_insertionSort keyLe).mp hp, hpr.symm⟩
  · intro p _
    match hl : p.2 with
    | none => simp [labelField]
    | some .dup => simp [labelField]
    | some (.cls n) => simp [labelField, pyStrOfNat_ne_empty n]
  · intro p _
    constructor
    · rintro (h | h) <;> rw [h] <;> rfl
    · intro n h
      rw [h]
      rfl

/-- Witness for C1 on a two-patient map. -/
theorem c1_witness :
    (([("p2", (some (Label.cls 1) : Option Label)), ("p1", none)].map Prod.fst).Nodup) ∧
    (SaveCSVSpec ⟨fun _ => true, fun _ => some "v", fun _ => none, fun _ => "ab"⟩ "/ds"
      [("p1_x.nii", .file "c")] false [("p2", some (Label.cls 1)), ("p1", none)] ∧
    pyBasename (csvFilePath "standard" "/ds" "/out") = CSV_NAME) :=
  ⟨by decide,
    c1_saveClassificationData_csv ⟨fun _ => true, fun _ => some "v", fun _ => none, fun _ => "ab"⟩
      "standard" "/ds" "/out" [("p1_x.nii", .file "c")] false
      [("p2", some (Label.cls 1)), ("p1", none)] (by decide)⟩

/-! ### C6: ledger round-trip -/

/-- C6 as amended: saving and reloading in the same mode over the same
dataset restores every label (`None` for the empty field) and adds `None`
for dataset patients missing from the map — provided each patient ID
equals its whitespace-stripped form (the reload strips IDs). -/
theorem c6_ledger_roundtrip (o : HashOracle) (datasetPath : String) (tree : Dir)
    (isHierarchical : Bool) (cd : CData) (allPatientIDs : List String)
    (hstrip : ∀ p ∈ cd, pyStrip p.1 = p.1) (hkeys : (cd.map Prod.fst).Nodup) :
    (∀ p ∈ cd,
      lookupA (loadExistingCSV (some (saveCSVRows o datasetPath tree isHierarchical cd))
        allPatientIDs) p.1 = some p.2)
    ∧ (∀ pid ∈ allPatientIDs, lookupA cd pid = none →
      lookupA (loadExistingCSV (some (saveCSVRows o datasetPath tree isHierarchical cd))
        allPatientIDs) pid = some none) := by
  have hparse := parseCSVRows_saveCSVRows o datasetPath tree isHierarchical cd hstrip hkeys
  have hsortnodup : ((List.insertionSort keyLe cd).map Prod.fst).Nodup :=
    (((List.perm_insertionSort keyLe cd).map Prod.fst).symm).nodup hkeys
  constructor
  · intro p hp
    have hmem : p ∈ List.insertionSort keyLe cd := (List.mem_insertionSort keyLe).mpr hp
    have hlk : lookupA (List.insertionSort keyLe cd) p.1 = some p.2 :=
      lookupA_of_mem_nodup (by rwa [show (p.1, p.2) = p from rfl]) hsortnodup
    simp only [loadExistingCSV, parsedOf]
    rw [hparse]
    exact lookupA_addUnclassified_of_some _ hlk
  · intro pid hpid hnone
    have hnotmem : pid ∉ cd.map Prod.fst := not_mem_of_lookupA_eq_none hnone
    have hnotmem2 : pid ∉ (List.insertionSort keyLe cd).map Prod.fst := by
      intro hm
      exact hnotmem (((List.perm_insertionSort keyLe cd).map Prod.fst).mem_iff.mp hm)
    have hlk : lookupA (List.insertionSort keyLe cd) pid = none :=
      lookupA_eq_none_of_not_mem hnotmem2
    simp only [loadExistingCSV, parsedOf]
    rw [hparse]
    exact lookupA_addUnclassified_of_none hpid hlk

/-- Counterexample to C6 as stated: a patient ID with leading whitespace is
stripped on reload, so the returned map assigns it `None`, not its saved
class. -/
theorem c6_roundtrip_counterexample :
    loadExistingCSV
      (some (saveCSVRows ⟨fun _ => true, fun _ => none, fun _ => none, fun _ => ""⟩
        "/ds" [] false [(" a", some (Label.cls 0))])) [" a"]
      = [("a", some (Label.cls 0)), (" a", none)] ∧
    lookupA (loadExistingCSV
      (some (saveCSVRows ⟨fun _ => true, fun _ => none, fun _ => none, fun _ => ""⟩
        "/ds" [] false [(" a", some (Label.cls 0))])) [" a"]) " a"
      ≠ some (some (Label.cls 0)) := by
  constructor
  · decide
  · decide

/-- Witness for the amended C6. -/
theorem c6_witness :
    ((∀ p ∈ [("p1", (some Label.dup : Option Label)), ("p2", some (Label.cls 2)), ("p3", none)],
        pyStrip p.1 = p.1) ∧
      (([("p1", (some Label.dup : Option Label)), ("p2", some (Label.cls 2)), ("p3", none)].map
        Prod.fst).Nodup)) ∧
    ((∀ p ∈ [("p1", (some Label.dup : Option Label)), ("p2", some (Label.cls 2)), ("p3", none)],
      lookupA (loadExistingCSV (some (saveCSVRows
        ⟨fun _ => true, fun _ => none, fun _ => none, fun _ => ""⟩ "/ds" [] false
        [("p1", some Label.dup), ("p2", some (Label.cls 2)), ("p3", none)]))
        ["p1", "p2", "p3", "p4"]) p.1 = some p.2)
    ∧ (∀ pid ∈ ["p1", "p2", "p3", "p4"],
      lookupA [("p1", (some Label.dup : Option Label)), ("p2", some (Label.cls 2)), ("p3", none)]
        pid = none →
      lookupA (loadExistingCSV (some (saveCSVRows
        ⟨fun _ => true, fun _ => none, fun _ => none, fun _ => ""⟩ "/ds" [] false
        [("p1", some Label.dup), ("p2", some (Label.cls 2)), ("p3", none)]))
        ["p1", "p2", "p3", "p4"]) pid = some none)) :=
  ⟨⟨by decide, by decide⟩,
    c6_ledger_roundtrip ⟨fun _ => true, fun _ => none, fun _ => none, fun _ => ""⟩
      "/ds" [] false [("p1", some Label.dup), ("p2", some (Label.cls 2)), ("p3", none)]
      ["p1", "p2", "p3", "p4"] (by decide) (by decide)⟩

/-! ### C8: flat-dataset prefix matching -/

/-- Membership in the flat-mode `findOriginalFile` result. -/
theorem mem_findOriginalFile_flat {datasetPath : String} {tree : Dir} {patientID : String}
    {f : String} :
    f ∈ findOriginalFile datasetPath tree patientID false ↔
      ∃ rp ∈ walkFrom datasetPath tree, pyInStr "output" rp.1 = false ∧
        ∃ q ∈ rp.2, (∃ content, q.2 = FSEntry.file content) ∧
          pyStartsWith (pySplitextRoot q.1) patientID = true ∧
          f = pathJoin rp.1 q.1 := by
  unfold findOriginalFile findOriginalFileEntries
  simp only [List.mem_map, List.mem_flatMap]
  constructor
  · rintro ⟨pr, ⟨rp, hrp, hmem⟩, hf⟩
    by_cases hs : pyInStr "output" rp.1
    · rw [if_pos hs] at hmem
      simp at hmem
    · rw [if_neg hs] at hmem
      obtain ⟨q, hq, hqmem⟩ := List.mem_flatMap.mp hmem
      match hq2 : q.2 with
      | FSEntry.file content =>
        rw [hq2] at hqmem
        simp only [Bool.false_eq_true, if_false] at hqmem
        split at hqmem
        · next hpre =>
          simp only [List.mem_singleton] at hqmem
          subst hqmem
          exact ⟨rp, hrp, Bool.eq_false_iff.mpr hs, q, hq, ⟨content, hq2⟩, hpre, hf.symm⟩
        · simp at hqmem
      | FSEntry.dir sub => rw [hq2] at hqmem; simp at hqmem
  · rintro ⟨rp, hrp, hs, q, hq, ⟨content, hq2⟩, hpre, hf⟩
    refine ⟨(pathJoin rp.1 q.1, content), ⟨rp, hrp, ?_⟩, hf.symm⟩
    rw [if_neg (by rw [hs]; simp)]
    refine List.mem_flatMap.mpr ⟨q, hq, ?_⟩
    rw [hq2]
    simp only [Bool.false_eq_true, if_false]
    rw [if_pos hpre]
    simp

/-- Membership in the flat branch of `getPatientFilesForReview`. -/
theorem mem_getPatientFilesForReview_flat {datasetPath : String} {tree : Dir}
    {patientID : String} {f : String} :
    f ∈ getPatientFilesForReview datasetPath tree patientID false ↔
      ∃ p ∈ tree, pyStartsWith p.1 patientID = true ∧ endsWithSupported p.1 = true ∧
        f = pathJoin datasetPath p.1 := by
  unfold getPatientFilesForReview
  simp only [Bool.false_eq_true, if_false, List.mem_map, List.mem_filter, Bool.and_eq_true]
  constructor
  · rintro ⟨p, ⟨hp, h1, h2⟩, hf⟩
    exact ⟨p, hp, h1, h2, hf.symm⟩
  · rintro ⟨p, hp, h1, h2, hf⟩
    exact ⟨p, ⟨hp, h1, h2⟩, hf.symm⟩

/-- C8: in a flat dataset, `getPatientFilesForReview` returns exactly the
root entries whose name starts with the patient ID and ends with a
supported extension, `findOriginalFile` matches the same way on `splitext`
roots, and when `pid1` is a prefix of `pid2` the lists for `pid1` contain
the lists for `pid2`. -/
theorem c8_flat_prefix_matching (datasetPath : String) (tree : Dir) (pid1 pid2 : String)
    (hpre : pyStartsWith pid2 pid1 = true) :
    FlatPrefixSpec datasetPath tree pid1 pid2 := by
  refine ⟨fun f => mem_getPatientFilesForReview_flat, fun f => mem_findOriginalFile_flat,
    ?_, ?_⟩
  · intro g hg
    obtain ⟨p, hp, h1, h2, hf⟩ := mem_getPatientFilesForReview_flat.mp hg
    exact mem_getPatientFilesForReview_flat.mpr ⟨p, hp, pyStartsWith_trans h1 hpre, h2, hf⟩
  · intro g hg
    obtain ⟨rp, hrp, hs, q, hq, hc, hp2, hf⟩ := mem_findOriginalFile_flat.mp hg
    exact mem_findOriginalFile_flat.mpr
      ⟨rp, hrp, hs, q, hq, hc, pyStartsWith_trans hp2 hpre, hf⟩

/-- Witness for C8 with `"img1"` a prefix of `"img10"`. -/
theorem c8_witness :
    pyStartsWith "img10" "img1" = true ∧
    FlatPrefixSpec "/ds" [("img1_a.nii", .file "c"), ("img10_b.nii", .file "d")]
      "img1" "img10" :=
  ⟨by decide,
    c8_flat_prefix_matching "/ds" [("img1_a.nii", .file "c"), ("img10_b.nii", .file "d")]
      "img1" "img10" (by decide)⟩

theorem loadNextGo_spec (o : HashOracle) (datasetPath : String) (tree : Dir) (isHier : Bool)
    (loadOk : String → Bool) (hashes : List (String × String)) :
    ∀ (l : List String) (cd : CData) (saves : List CData) (vis : List String),
    l.Nodup → (∀ x ∈ l, x ∉ vis) →
    (∀ p, (loadNextGo o datasetPath tree isHier loadOk hashes l cd saves vis).loaded = some p →
      p ∈ l ∧ isPatientDuplicate hashes (currentHashString o datasetPath tree isHier p) = none)
    ∧ (∀ pid, pid ∈ (loadNextGo o datasetPath tree isHier loadOk hashes l cd saves vis).visited →
        pid ∈ vis ∨ pid ∈ l)
    ∧ (∀ k, k ∉ l →
        lookupA (loadNextGo o datasetPath tree isHier loadOk hashes l cd saves vis).cd k
          = lookupA cd k)
    ∧ (∃ post, (loadNextGo o datasetPath tree isHier loadOk hashes l cd saves vis).saves
        = saves ++ post)
    ∧ ∀ pid ∈ l,
        pid ∈ (loadNextGo o datasetPath tree isHier loadOk hashes l cd saves vis).visited →
        getPatientFilesForReview datasetPath tree pid isHier ≠ [] →
        ∀ origID,
          isPatientDuplicate hashes (currentHashString o datasetPath tree isHier pid)
            = some origID →
          lookupA (loadNextGo o datasetPath tree isHier loadOk hashes l cd saves vis).cd pid
              = some (some Label.dup)
          ∧ (∃ s ∈ (loadNextGo o datasetPath tree isHier loadOk hashes l cd saves vis).saves,
              lookupA s pid = some (some Label.dup))
          ∧ (loadNextGo o datasetPath tree isHier loadOk hashes l cd saves vis).loaded
              ≠ some pid := by
  intro l
  induction l with
  | nil =>
    intro cd saves vis _ _
    refine ⟨?_, ?_, ?_, ⟨[], by simp [loadNextGo]⟩, ?_⟩
    · intro p hp; simp [loadNextGo] at hp
    · intro pid hp; exact Or.inl hp
    · intro k _; rfl
    · intro pid hp; simp at hp
  | cons pid0 rest ih =>
    intro cd saves vis hnodup hdisj
    simp only [List.nodup_cons] at hnodup
    have hpid0rest : pid0 ∉ rest := hnodup.1
    by_cases hfiles : getPatientFilesForReview datasetPath tree pid0 isHier = []
    · -- no files: skipped silently
      have hgo : loadNextGo o datasetPath tree isHier loadOk hashes (pid0 :: rest) cd saves vis
          = loadNextGo o datasetPath tree isHier loadOk hashes rest cd saves (vis ++ [pid0]) := by
        simp [loadNextGo, hfiles]
      obtain ⟨ha, hb, hc, hd, he⟩ := ih cd saves (vis ++ [pid0]) hnodup.2
        (fun x hx => by
          simp only [List.mem_append, List.mem_singleton, not_or]
          exact ⟨hdisj x (by simp [hx]), fun hh => hpid0rest (hh ▸ hx)⟩)
      rw [hgo]
      refine ⟨fun p hp => ?_, fun pid hp => ?_, fun k hk => ?_, hd, fun pid hpl hpv hpf => ?_⟩
      · obtain ⟨h1, h2⟩ := ha p hp
        exact ⟨by simp [h1], h2⟩
      · rcases hb pid hp with h | h
        · rcases List.mem_append.mp h with h | h
          · exact Or.inl h
          · simp only [List.mem_singleton] at h
            exact Or.inr (by simp [h])
        · exact Or.inr (by simp [h])
      · exact hc k (fun hh => hk (by simp [hh]))
      · rcases List.mem_cons.mp hpl with rfl | hpl2
        · exact absurd hfiles hpf
        · exact he pid hpl2 hpv hpf
    · cases hdup : isPatientDuplicate hashes (currentHashString o datasetPath tree isHier pid0) with
      | some orig =>
        have hgo : loadNextGo o datasetPath tree isHier loadOk hashes (pid0 :: rest) cd saves vis
            = loadNextGo o datasetPath tree isHier loadOk hashes rest
              (setA cd pid0 (some Label.dup)) (saves ++ [setA cd pid0 (some Label.dup)])
              (vis ++ [pid0]) := by
          simp [loadNextGo, hfiles, hdup]
        obtain ⟨ha, hb, hc, hd, he⟩ := ih (setA cd pid0 (some Label.dup))
          (saves ++ [setA cd pid0 (some Label.dup)]) (vis ++ [pid0]) hnodup.2
          (fun x hx => by
            simp only [List.mem_append, List.mem_singleton, not_or]
            exact ⟨hdisj x (by simp [hx]), fun hh => hpid0rest (hh ▸ hx)⟩)
        rw [hgo]
        obtain ⟨post, hpost⟩ := hd
        refine ⟨fun p hp => ?_, fun pid hp => ?_, fun k hk => ?_,
          ⟨[setA cd pid0 (some Label.dup)] ++ post, by rw [hpost]; simp⟩,
          fun pid hpl hpv hpf => ?_⟩
        · obtain ⟨h1, h2⟩ := ha p hp
          exact ⟨by simp [h1], h2⟩
        · rcases hb pid hp with h | h
          · rcases List.mem_append.mp h with h | h
            · exact Or.inl h
            · simp only [List.mem_singleton] at h
              exact Or.inr (by simp [h])
          · exact Or.inr (by simp [h])
        · have hkrest : k ∉ rest := fun hh => hk (by simp [hh])
          have hkpid0 : k ≠ pid0 := fun hh => hk (by simp [hh])
          rw [hc k hkrest, lookupA_setA_ne _ _ hkpid0]
        · rcases List.mem_cons.mp hpl with rfl | hpl2
          · -- the duplicate patient itself
            intro origID2 hdup2
            refine ⟨?_, ?_, ?_⟩
            · rw [hc pid hpid0rest, lookupA_setA_self]
            · refine ⟨setA cd pid (some Label.dup), ?_, lookupA_setA_self _ _ _⟩
              rw [hpost]
              simp
            · intro hl
              obtain ⟨h1, _⟩ := ha pid hl
              exact hpid0rest h1
          · intro origID2 hdup2
            exact he pid hpl2 hpv hpf origID2 hdup2
      | none =>
        by_cases hok : loadOk pid0 = true
        · have hgo : loadNextGo o datasetPath tree isHier loadOk hashes (pid0 :: rest) cd saves
              vis = ⟨cd, saves, some pid0, vis ++ [pid0]⟩ := by
            simp [loadNextGo, hfiles, hdup, hok]
          rw [hgo]
          refine ⟨fun p hp => ?_, fun pid hp => ?_, fun k _ => rfl,
            ⟨[], by simp⟩, fun pid hpl hpv hpf => ?_⟩
          · simp only [Option.some.injEq] at hp
            subst hp
            exact ⟨by simp, hdup⟩
          · simp only [List.mem_append, List.mem_singleton] at hp
            rcases hp with h | h
            · exact Or.inl h
            · exact Or.inr (by simp [h])
          · rcases List.mem_cons.mp hpl with rfl | hpl2
            · intro origID hdup2
              rw [hdup] at hdup2
              cases hdup2
            · simp only [List.mem_append, List.mem_singleton] at hpv
              rcases hpv with h | h
              · exact absurd h (hdisj pid (by simp [hpl2]))
              · exact absurd h (fun hh => hpid0rest (hh ▸ hpl2))
        · have hgo : loadNextGo o datasetPath tree isHier loadOk hashes (pid0 :: rest) cd saves
              vis = loadNextGo o datasetPath tree isHier loadOk hashes rest cd saves
                (vis ++ [pid0]) := by
            simp [loadNextGo, hfiles, hdup, hok]
          obtain ⟨ha, hb, hc, hd, he⟩ := ih cd saves (vis ++ [pid0]) hnodup.2
            (fun x hx => by
              simp only [List.mem_append, List.mem_singleton, not_or]
              exact ⟨hdisj x (by simp [hx]), fun hh => hpid0rest (hh ▸ hx)⟩)
          rw [hgo]
          refine ⟨fun p hp => ?_, fun pid hp => ?_, fun k hk => ?_, hd,
            fun pid hpl hpv hpf => ?_⟩
          · obtain ⟨h1, h2⟩ := ha p hp
            exact ⟨by simp [h1], h2⟩
          · rcases hb pid hp with h | h
            · rcases List.mem_append.mp h with h | h
              · exact Or.inl h
              · simp only [List.mem_singleton] at h
                exact Or.inr (by simp [h])
            · exact Or.inr (by simp [h])
          · exact hc k (fun hh => hk (by simp [hh]))
          · rcases List.mem_cons.mp hpl with rfl | hpl2
            · intro origID hdup2
              rw [hdup] at hdup2
              cases hdup2
            · exact he pid hpl2 hpv hpf

/-- C3: during automatic advancement, every examined unclassified patient
whose combined hash string equals a non-empty recorded ledger hash is
assigned `DUPLICATE`, that assignment is passed to
`saveClassificationData`, and the patient is skipped; the patient that is
presented matches no recorded hash. -/
theorem c3_loadNextPatient_duplicates (o : HashOracle) (datasetPath : String) (tree : Dir)
    (isHier : Bool) (loadOk : String → Bool) (hashes : List (String × String)) (cd : CData)
    (hkeys : (cd.map Prod.fst).Nodup) :
    LoadNextDupSpec o datasetPath tree isHier loadOk hashes cd := by
  have hsub : List.Sublist (unclassifiedOf cd) (cd.map Prod.fst) := by
    unfold unclassifiedOf
    have h1 : List.Sublist (cd.filter (fun p => decide (p.2 = none) ||
        (pyLower (pyStrip (pyStrLabel p.2)) == "" ||
          pyLower (pyStrip (pyStrLabel p.2)) == "none"))) cd :=
      List.filter_sublist cd
    exact h1.map Prod.fst
  have hnodup : (unclassifiedOf cd).Nodup := List.Nodup.sublist hsub hkeys
  obtain ⟨ha, hb, _, _, he⟩ := loadNextGo_spec o datasetPath tree isHier loadOk hashes
    (unclassifiedOf cd) cd [] [] hnodup (by simp)
  constructor
  · intro p hp
    exact (ha p hp).2
  · intro pid hpid hfiles origID hdup
    have hmem : pid ∈ unclassifiedOf cd := by
      rcases hb pid hpid with h | h
      · simp at h
      · exact h
    exact he pid hmem hpid hfiles origID hdup

/-- Witness for C3: one recorded hash, one matching unclassified patient
(which gets marked and skipped) and one distinct loadable patient. -/
theorem c3_witness :
    (([("p1", (none : Option Label)), ("p2", none)].map Prod.fst).Nodup) ∧
    LoadNextDupSpec ⟨fun _ => true, fun _ => some "v", fun _ => none, fun s => s⟩
      "/ds" [("p1_a.nii", .file "v"), ("p2_b.nii", .file "w")] false (fun _ => true)
      [("old", "v")] [("p1", none), ("p2", none)] :=
  ⟨by decide,
    c3_loadNextPatient_duplicates ⟨fun _ => true, fun _ => some "v", fun _ => none, fun s => s⟩
      "/ds" [("p1_a.nii", .file "v"), ("p2_b.nii", .file "w")] false (fun _ => true)
      [("old", "v")] [("p1", none), ("p2", none)] (by decide)⟩

/-- C7 as amended: every CSV read/write error is caught and answered with
an error dialog while the operation returns an empty result, and
`compute_patient_hashes` likewise returns normally — but it never shows a
dialog, even when reads fail. -/
theorem c7_error_handling_amended :
    (∀ e pids, (loadExistingCSVEff (.err e) pids).1 = addUnclassified [] pids
      ∧ (loadExistingCSVEff (.err e) pids).2 ≠ [])
    ∧ (∀ e, (loadExistingPatientsFromCSVEff (.err e)).1 = []
      ∧ (loadExistingPatientsFromCSVEff (.err e)).2 ≠ [])
    ∧ (∀ e, (countPatientsPerClassFromCSVEff (.err e)).1 = []
      ∧ (countPatientsPerClassFromCSVEff (.err e)).2 ≠ [])
    ∧ (∀ e o datasetPath tree isHierarchical cd,
      (saveClassificationDataEff (some e) o datasetPath tree isHierarchical cd).1 = none
      ∧ (saveClassificationDataEff (some e) o datasetPath tree isHierarchical cd).2 ≠ [])
    ∧ (∀ o fileList, (compute_patient_hashesEff o fileList).1 = compute_patient_hashes o fileList
      ∧ (compute_patient_hashesEff o fileList).2 = []) :=
  ⟨fun _ _ => ⟨rfl, by simp [loadExistingCSVEff]⟩,
    fun _ => ⟨rfl, by simp [loadExistingPatientsFromCSVEff]⟩,
    fun _ => ⟨rfl, by simp [countPatientsPerClassFromCSVEff]⟩,
    fun _ _ _ _ _ _ => ⟨rfl, by simp [saveClassificationDataEff]⟩,
    fun _ _ => ⟨rfl, rfl⟩⟩

/-- Counterexample to C7 as stated: an image-read failure inside
`compute_patient_hashes` is caught but produces no dialog at all — the
function silently returns `[""]`. -/
theorem c7_counterexample :
    (⟨fun _ => true, fun _ => none, fun _ => none, fun s => s⟩ : HashOracle).readImage
      "/ds/a.nii" = none
    ∧ (compute_patient_hashesEff ⟨fun _ => true, fun _ => none, fun _ => none, fun s => s⟩
      ["/ds/a.nii"]).1 = [""]
    ∧ (compute_patient_hashesEff ⟨fun _ => true, fun _ => none, fun _ => none, fun s => s⟩
      ["/ds/a.nii"]).2 = [] := by
  refine ⟨rfl, ?_, rfl⟩
  decide

theorem dirGet_mem {d : Dir} {k : String} {v : FSEntry} (h : dirGet d k = some v) :
    (k, v) ∈ d := by
  induction d with
  | nil => simp [dirGet] at h
  | cons p rest ih =>
    obtain ⟨x, y⟩ := p
    by_cases hp : x = k
    · simp only [dirGet, if_pos hp] at h
      subst hp
      cases h
      simp
    · simp only [dirGet, if_neg hp] at h
      simp [ih h]

theorem mem_map_fst_of_dirGet {d : Dir} {k : String} {v : FSEntry}
    (h : dirGet d k = some v) : k ∈ d.map Prod.fst :=
  List.mem_map.mpr ⟨(k, v), dirGet_mem h, rfl⟩

theorem moveStep_id_of_not_dir {pid nn name : String} {st : Dir}
    (h : ∀ s, dirGet st name ≠ some (FSEntry.dir s)) :
    moveStep pid nn st name = st := by
  unfold moveStep
  cases hg : dirGet st name with
  | none => rfl
  | some e =>
    cases e with
    | file c => rfl
    | dir s => exact absurd hg (h s)

theorem moveStep_id_of_no_pid {pid nn name : String} {st : Dir} {s : Dir}
    (hg : dirGet st name = some (FSEntry.dir s)) (hp : dirGet s pid = none) :
    moveStep pid nn st name = st := by
  simp only [moveStep, hg, hp]

theorem moveStep_id_newName (pid nn : String) (st : Dir) :
    moveStep pid nn st nn = st := by
  cases hg : dirGet st nn with
  | none => simp only [moveStep, hg]
  | some e =>
    cases e with
    | file c => simp only [moveStep, hg]
    | dir s =>
      cases hp : dirGet s pid with
      | none => simp only [moveStep, hg, hp]
      | some pEntry =>
        simp only [moveStep, hg, hp]
        simp

theorem foldl_moveStep_id {pid nn : String} {st : Dir} {names : List String}
    (h : ∀ name ∈ names, moveStep pid nn st name = st) :
    names.foldl (moveStep pid nn) st = st := by
  induction names with
  | nil => rfl
  | cons x rest ih =>
    simp only [List.foldl_cons]
    rw [h x (by simp)]
    exact ih (fun name hn => h name (by simp [hn]))

/-- Lookup in a directory extended on the right by one fresh entry. -/
theorem dirGet_append_singleton_ne {a : Dir} {k q : String} (v : FSEntry) (h : q ≠ k) :
    dirGet (a ++ [(k, v)]) q = dirGet a q := by
  cases hg : dirGet a q with
  | some w => exact dirGet_append_of_some _ hg
  | none =>
    rw [dirGet_append_of_none hg]
    have hk : ¬(k = q) := fun hh => h hh.symm
    simp [dirGet, hk, hg]

theorem dirGet_append_singleton_self {a : Dir} {k : String} (v : FSEntry)
    (h : dirGet a k = none) : dirGet (a ++ [(k, v)]) k = some v := by
  rw [dirGet_append_of_none h]
  simp [dirGet]

/-- What one `moveStep` does at the class folder that holds the patient:
the patient entry lands in the target class folder (created if absent),
the source folder loses it (and is removed when empty), and every other
name is untouched. -/
theorem moveStep_action {pid cm cn : String} {st : Dir} {sub : Dir} {pEntry : FSEntry}
    (hne : cm ≠ cn)
    (hcm : dirGet st cm = some (FSEntry.dir sub))
    (hpid : dirGet sub pid = some pEntry)
    (hcn : dirGet st cn = none ∨
      ∃ subN, dirGet st cn = some (FSEntry.dir subN) ∧ dirGet subN pid = none) :
    ∃ tgt, dirGet (moveStep pid cn st cm) cn = some (FSEntry.dir tgt)
      ∧ dirGet tgt pid = some pEntry
      ∧ (∀ q, q ≠ pid → dirGet tgt q = (match dirGet st cn with
          | some (FSEntry.dir s) => dirGet s q
          | _ => none))
      ∧ (if (dirRemove sub pid).isEmpty then dirGet (moveStep pid cn st cm) cm = none
          else dirGet (moveStep pid cn st cm) cm = some (FSEntry.dir (dirRemove sub pid)))
      ∧ (∀ name, name ≠ cm → name ≠ cn → dirGet (moveStep pid cn st cm) name = dirGet st name) := by
  have hnecn : cn ≠ cm := Ne.symm hne
  rcases hcn with hcnn | ⟨subN, hcnn, hsubN⟩
  · -- the target class folder does not exist yet: it is created empty
    have hget2 : dirGet (dirSet (dirSet st cn (FSEntry.dir [])) cm
        (FSEntry.dir (dirRemove sub pid))) cn = some (FSEntry.dir []) := by
      rw [dirGet_dirSet_ne _ _ hnecn, dirGet_dirSet_self]
    have hstep : moveStep pid cn st cm
        = (if (dirRemove sub pid).isEmpty then
            dirRemove (dirSet (dirSet (dirSet st cn (FSEntry.dir [])) cm
              (FSEntry.dir (dirRemove sub pid))) cn (FSEntry.dir [(pid, pEntry)])) cm
          else dirSet (dirSet (dirSet st cn (FSEntry.dir [])) cm
            (FSEntry.dir (dirRemove sub pid))) cn (FSEntry.dir [(pid, pEntry)])) := by
      simp only [moveStep, moveAction, moveMakeTarget, moveInsertTarget, hcm, hpid,
        if_neg hne, hcnn, Option.isSome_none, Bool.false_eq_true, if_false, hget2,
        moveTargetInsert, dirGet, List.nil_append]
    refine ⟨[(pid, pEntry)], ?_, by simp [dirGet], ?_, ?_, ?_⟩
    · rw [hstep]
      by_cases hemp : (dirRemove sub pid).isEmpty
      · rw [if_pos hemp, dirGet_dirRemove_ne _ hnecn, dirGet_dirSet_self]
      · rw [if_neg hemp, dirGet_dirSet_self]
    · intro q hq
      rw [hcnn]
      have hpq : ¬(pid = q) := fun hh => hq hh.symm
      simp [dirGet, hpq]
    · rw [hstep]
      by_cases hemp : (dirRemove sub pid).isEmpty
      · rw [if_pos hemp]
        simp only [hemp, if_pos]
        rw [dirGet_dirRemove_self]
      · rw [if_neg hemp]
        simp only [hemp, Bool.false_eq_true, if_false]
        rw [dirGet_dirSet_ne _ _ (Ne.symm hnecn), dirGet_dirSet_self]
    · intro name hncm hncn
      rw [hstep]
      by_cases hemp : (dirRemove sub pid).isEmpty
      · rw [if_pos hemp, dirGet_dirRemove_ne _ hncm, dirGet_dirSet_ne _ _ hncn,
          dirGet_dirSet_ne _ _ hncm, dirGet_dirSet_ne _ _ hncn]
      · rw [if_neg hemp, dirGet_dirSet_ne _ _ hncn, dirGet_dirSet_ne _ _ hncm,
          dirGet_dirSet_ne _ _ hncn]
  · -- the target class folder already exists (a directory without the patient)
    have hget2 : dirGet (dirSet st cm (FSEntry.dir (dirRemove sub pid))) cn
        = some (FSEntry.dir subN) := by
      rw [dirGet_dirSet_ne _ _ hnecn, hcnn]
    have hstep : moveStep pid cn st cm
        = (if (dirRemove sub pid).isEmpty then
            dirRemove (dirSet (dirSet st cm (FSEntry.dir (dirRemove sub pid))) cn
              (FSEntry.dir (subN ++ [(pid, pEntry)]))) cm
          else dirSet (dirSet st cm (FSEntry.dir (dirRemove sub pid))) cn
            (FSEntry.dir (subN ++ [(pid, pEntry)]))) := by
      simp only [moveStep, moveAction, moveMakeTarget, moveInsertTarget, hcm, hpid,
        if_neg hne, hcnn, Option.isSome_some, if_pos, hget2, moveTargetInsert, hsubN]
    refine ⟨subN ++ [(pid, pEntry)], ?_, dirGet_append_singleton_self _ hsubN, ?_, ?_, ?_⟩
    · rw [hstep]
      by_cases hemp : (dirRemove sub pid).isEmpty
      · rw [if_pos hemp, dirGet_dirRemove_ne _ hnecn, dirGet_dirSet_self]
      · rw [if_neg hemp, dirGet_dirSet_self]
    · intro q hq
      rw [hcnn, dirGet_append_singleton_ne _ hq]
    · rw [hstep]
      by_cases hemp : (dirRemove sub pid).isEmpty
      · rw [if_pos hemp]
        simp only [hemp, if_pos]
        rw [dirGet_dirRemove_self]
      · rw [if_neg hemp]
        simp only [hemp, Bool.false_eq_true, if_false]
        rw [dirGet_dirSet_ne _ _ (Ne.symm hnecn), dirGet_dirSet_self]
    · intro name hncm hncn
      rw [hstep]
      by_cases hemp : (dirRemove sub pid).isEmpty
      · rw [if_pos hemp, dirGet_dirRemove_ne _ hncm, dirGet_dirSet_ne _ _ hncn,
          dirGet_dirSet_ne _ _ hncm]
      · rw [if_neg hemp, dirGet_dirSet_ne _ _ hncn, dirGet_dirSet_ne _ _ hncm]

theorem className_inj {m n : Nat} (h : "class" ++ pyStrOfNat m = "class" ++ pyStrOfNat n) :
    m = n := by
  apply pyStrOfNat_injective
  have h2 := congrArg String.data h
  rw [String.data_append, String.data_append] at h2
  have h3 := List.append_cancel_left h2
  cases hm : pyStrOfNat m with
  | mk dm =>
    cases hn : pyStrOfNat n with
    | mk dn =>
      rw [hm, hn] at h3
      exact congrArg String.mk h3

/-- C4: `movePatientIfReclassified` moves `output/classM/<patientID>` to
`output/classN/<patientID>` (creating `classN` when absent), deletes
`classM` when the move empties it, and leaves every other patient and
class folder unchanged.  Hypotheses: distinct folder names (a real
directory listing), the patient folder occurs only under `classM`, and
`classN` — if it exists — is a directory. -/
theorem c4_movePatientIfReclassified (out : Dir) (pid : String) (m n : Nat)
    (hmn : m ≠ n)
    (hnodup : (out.map Prod.fst).Nodup)
    (honly : ∀ p ∈ out, p.1 ≠ "class" ++ pyStrOfNat m →
      ∀ s, p.2 = FSEntry.dir s → dirGet s pid = none)
    (hcnshape : ∀ p ∈ out, p.1 = "class" ++ pyStrOfNat n → p.2.isFileE = false) :
    MoveReclassifiedSpec out pid m n := by
  intro sub pEntry hcm hpid
  set cm := "class" ++ pyStrOfNat m with hcmdef
  set cn := "class" ++ pyStrOfNat n with hcndef
  have hne : cm ≠ cn := fun h => hmn (className_inj h)
  have honlyG : ∀ name, name ≠ cm → ∀ s, dirGet out name = some (FSEntry.dir s) →
      dirGet s pid = none := by
    intro name hnm s hget
    exact honly (name, FSEntry.dir s) (dirGet_mem hget) hnm s rfl
  have hcnor : dirGet out cn = none ∨
      ∃ subN, dirGet out cn = some (FSEntry.dir subN) ∧ dirGet subN pid = none := by
    cases hgn : dirGet out cn with
    | none => exact Or.inl rfl
    | some e =>
      have hshape := hcnshape (cn, e) (dirGet_mem hgn) rfl
      cases e with
      | file c => simp [FSEntry.isFileE] at hshape
      | dir s =>
        exact Or.inr ⟨s, rfl, honlyG cn (Ne.symm hne) s hgn⟩
  have hcmmem : cm ∈ out.map Prod.fst := mem_map_fst_of_dirGet hcm
  obtain ⟨l1, l2, hsplit⟩ := List.append_of_mem hcmmem
  have hnodup2 : (l1 ++ cm :: l2).Nodup := hsplit ▸ hnodup
  obtain ⟨hnl1, hncl2, hdisj⟩ := List.nodup_append.mp hnodup2
  have hcmnotl1 : cm ∉ l1 := fun hmem => hdisj hmem (by simp)
  have hcmnotl2 : cm ∉ l2 := (List.nodup_cons.mp hncl2).1
  have hphaseA : l1.foldl (moveStep pid cn) out = out := by
    refine foldl_moveStep_id (fun name hn => ?_)
    have hnname : name ≠ cm := fun hh => hcmnotl1 (hh ▸ hn)
    cases hg : dirGet out name with
    | none => exact moveStep_id_of_not_dir (fun s hs => by rw [hg] at hs; cases hs)
    | some e =>
      cases e with
      | file c => exact moveStep_id_of_not_dir (fun s hs => by rw [hg] at hs; cases hs)
      | dir s => exact moveStep_id_of_no_pid hg (honlyG name hnname s hg)
  obtain ⟨tgt, htgtget, htgtpid, htgtq, hcmres, hothers⟩ :=
    moveStep_action hne hcm hpid hcnor
  have hphaseB : l2.foldl (moveStep pid cn) (moveStep pid cn out cm) = moveStep pid cn out cm := by
    refine foldl_moveStep_id (fun name hn => ?_)
    have hnname : name ≠ cm := fun hh => hcmnotl2 (hh ▸ hn)
    by_cases hncn : name = cn
    · rw [hncn]
      exact moveStep_id_newName pid cn _
    · have hlook : dirGet (moveStep pid cn out cm) name = dirGet out name :=
        hothers name hnname hncn
      cases hg : dirGet out name with
      | none =>
        exact moveStep_id_of_not_dir (fun s hs => by rw [hlook, hg] at hs; cases hs)
      | some e =>
        cases e with
        | file c =>
          exact moveStep_id_of_not_dir (fun s hs => by rw [hlook, hg] at hs; cases hs)
        | dir s =>
          exact moveStep_id_of_no_pid (hlook.trans hg) (honlyG name hnname s hg)
  have hfold : movePatientIfReclassified out pid n = moveStep pid cn out cm := by
    unfold movePatientIfReclassified
    rw [← hcndef, hsplit, List.foldl_append, hphaseA, List.foldl_cons, hphaseB]
  rw [hfold]
  exact ⟨⟨tgt, htgtget, htgtpid, htgtq⟩, hcmres, hothers⟩

/-- Witness for C4: the patient `p` sits in `class1` together with another
patient `r`; saving with class `2` moves `p` next to `q` in `class2`. -/
theorem c4_witness :
    ((1 : Nat) ≠ 2
      ∧ (([("class1", FSEntry.dir [("p", FSEntry.dir [("a.nii", FSEntry.file "c")]),
            ("r", FSEntry.dir [])]),
          ("class2", FSEntry.dir [("q", FSEntry.dir [])])].map Prod.fst).Nodup)
      ∧ (∀ p ∈ [("class1", FSEntry.dir [("p", FSEntry.dir [("a.nii", FSEntry.file "c")]),
            ("r", FSEntry.dir [])]),
          ("class2", FSEntry.dir [("q", FSEntry.dir [])])], p.1 ≠ "class" ++ pyStrOfNat 1 →
        ∀ s, p.2 = FSEntry.dir s → dirGet s "p" = none)
      ∧ (∀ p ∈ [("class1", FSEntry.dir [("p", FSEntry.dir [("a.nii", FSEntry.file "c")]),
            ("r", FSEntry.dir [])]),
          ("class2", FSEntry.dir [("q", FSEntry.dir [])])], p.1 = "class" ++ pyStrOfNat 2 →
        p.2.isFileE = false)) ∧
    MoveReclassifiedSpec
      [("class1", FSEntry.dir [("p", FSEntry.dir [("a.nii", FSEntry.file "c")]),
          ("r", FSEntry.dir [])]),
        ("class2", FSEntry.dir [("q", FSEntry.dir [])])] "p" 1 2 :=
  ⟨⟨by decide, by decide,
      by
        intro p hp hne s hs
        rcases List.mem_cons.mp hp with rfl | hp2
        · exact absurd rfl hne
        · rcases List.mem_cons.mp hp2 with rfl | hp3
          · cases hs
            rfl
          · simp at hp3,
      by
        intro p hp heq
        rcases List.mem_cons.mp hp with rfl | hp2
        · rfl
        · rcases List.mem_cons.mp hp2 with rfl | hp3
          · rfl
          · simp at hp3⟩,
    c4_movePatientIfReclassified _ "p" 1 2 (by decide) (by decide)
      (by
        intro p hp hne s hs
        rcases List.mem_cons.mp hp with rfl | hp2
        · exact absurd rfl hne
        · rcases List.mem_cons.mp hp2 with rfl | hp3
          · cases hs
            rfl
          · simp at hp3)
      (by
        intro p hp heq
        rcases List.mem_cons.mp hp with rfl | hp2
        · rfl
        · rcases List.mem_cons.mp hp2 with rfl | hp3
          · rfl
          · simp at hp3)⟩

theorem foldl_preserve {α σ : Type} (P : σ → Prop) (f : σ → α → σ) (l : List α)
    (h : ∀ s a, P s → P (f s a)) : ∀ s, P s → P (l.foldl f s) := by
  induction l with
  | nil => intro s hs; exact hs
  | cons x rest ih =>
    intro s hs
    exact ih (f s x) (h s x hs)

theorem PFree_dirSet {st : Dir} {pid name : String} {s2 : Dir}
    (hP : PFree st pid) (hs2 : dirGet s2 pid = none) :
    PFree (dirSet st name (FSEntry.dir s2)) pid := by
  intro name2 s hget
  by_cases h : name2 = name
  · subst h
    rw [dirGet_dirSet_self] at hget
    cases hget
    exact hs2
  · rw [dirGet_dirSet_ne _ _ h] at hget
    exact hP name2 s hget

theorem PFree_dirRemove {st : Dir} {pid name : String} (hP : PFree st pid) :
    PFree (dirRemove st name) pid := by
  intro name2 s hget
  by_cases h : name2 = name
  · subst h
    rw [dirGet_dirRemove_self] at hget
    cases hget
  · rw [dirGet_dirRemove_ne _ h] at hget
    exact hP name2 s hget

theorem CShaped_dirSet_dir {st : Dir} {name : String} {s2 : Dir} (hC : CShaped st) :
    CShaped (dirSet st name (FSEntry.dir s2)) := by
  intro k e hget
  by_cases h : "class" ++ pyStrOfNat k = name
  · rw [h, dirGet_dirSet_self] at hget
    cases hget
    exact ⟨s2, rfl⟩
  · rw [dirGet_dirSet_ne _ _ h] at hget
    exact hC k e hget

theorem CShaped_dirRemove {st : Dir} {name : String} (hC : CShaped st) :
    CShaped (dirRemove st name) := by
  intro k e hget
  by_cases h : "class" ++ pyStrOfNat k = name
  · rw [h, dirGet_dirRemove_self] at hget
    cases hget
  · rw [dirGet_dirRemove_ne _ h] at hget
    exact hC k e hget

/-- `moveTargetInsert` only touches the key being moved. -/
theorem moveTargetInsert_get_other {tgt : Dir} {pid2 q : String} {p : FSEntry}
    (h : q ≠ pid2) : dirGet (moveTargetInsert tgt pid2 p) q = dirGet tgt q := by
  unfold moveTargetInsert
  cases hg : dirGet tgt pid2 with
  | none => exact dirGet_append_singleton_ne _ h
  | some e =>
    cases e with
    | file c => exact dirGet_dirSet_ne _ _ h
    | dir inner => exact dirGet_dirSet_ne _ _ h

theorem isEmpty_false_of_dirGet {l : Dir} {k : String} {v : FSEntry}
    (h : dirGet l k = some v) : l.isEmpty = false := by
  cases l with
  | nil => simp [dirGet] at h
  | cons p rest => rfl

theorem moveMakeTarget_preserves_PC {nn pid : String} {st : Dir}
    (hP : PFree st pid) (hC : CShaped st) :
    PFree (moveMakeTarget nn st) pid ∧ CShaped (moveMakeTarget nn st) := by
  unfold moveMakeTarget
  split
  · exact ⟨hP, hC⟩
  · exact ⟨PFree_dirSet hP rfl, CShaped_dirSet_dir hC⟩

theorem moveInsertTarget_preserves_PC {pid pid2 nn : String} {pEntry : FSEntry} {st : Dir}
    (hne : pid ≠ pid2) (hP : PFree st pid) (hC : CShaped st) :
    PFree (moveInsertTarget pid2 nn pEntry st) pid ∧
      CShaped (moveInsertTarget pid2 nn pEntry st) := by
  unfold moveInsertTarget
  cases hg : dirGet st nn with
  | none => exact ⟨hP, hC⟩
  | some e =>
    cases e with
    | file c => exact ⟨hP, hC⟩
    | dir tgt =>
      refine ⟨PFree_dirSet hP ?_, CShaped_dirSet_dir hC⟩
      rw [moveTargetInsert_get_other hne]
      exact hP nn tgt hg

theorem moveAction_preserves_PC {pid pid2 nn cf : String} {st sub : Dir} {pEntry : FSEntry}
    (hne : pid ≠ pid2) (hsub : dirGet st cf = some (FSEntry.dir sub))
    (hP : PFree st pid) (hC : CShaped st) :
    PFree (moveAction pid2 nn cf st sub pEntry) pid ∧
      CShaped (moveAction pid2 nn cf st sub pEntry) := by
  have h1 : PFree (moveMakeTarget nn st) pid ∧ CShaped (moveMakeTarget nn st) :=
    moveMakeTarget_preserves_PC hP hC
  have hsubfree : dirGet (dirRemove sub pid2) pid = none := by
    rw [dirGet_dirRemove_ne _ hne]
    exact hP cf sub hsub
  have h2 : PFree (dirSet (moveMakeTarget nn st) cf (FSEntry.dir (dirRemove sub pid2))) pid ∧
      CShaped (dirSet (moveMakeTarget nn st) cf (FSEntry.dir (dirRemove sub pid2))) :=
    ⟨PFree_dirSet h1.1 hsubfree, CShaped_dirSet_dir h1.2⟩
  have h3 : PFree (moveInsertTarget pid2 nn pEntry
        (dirSet (moveMakeTarget nn st) cf (FSEntry.dir (dirRemove sub pid2)))) pid ∧
      CShaped (moveInsertTarget pid2 nn pEntry
        (dirSet (moveMakeTarget nn st) cf (FSEntry.dir (dirRemove sub pid2)))) :=
    moveInsertTarget_preserves_PC hne h2.1 h2.2
  unfold moveAction
  split
  · exact ⟨PFree_dirRemove h3.1, CShaped_dirRemove h3.2⟩
  · exact h3

theorem moveStep_preserves_PC {pid pid2 nn cf : String} {st : Dir}
    (hne : pid ≠ pid2) (hP : PFree st pid) (hC : CShaped st) :
    PFree (moveStep pid2 nn st cf) pid ∧ CShaped (moveStep pid2 nn st cf) := by
  cases hg : dirGet st cf with
  | none =>
    rw [moveStep_id_of_not_dir (fun s hs => by rw [hg] at hs; cases hs)]
    exact ⟨hP, hC⟩
  | some e =>
    cases e with
    | file c =>
      rw [moveStep_id_of_not_dir (fun s hs => by rw [hg] at hs; cases hs)]
      exact ⟨hP, hC⟩
    | dir sub =>
      cases hp2 : dirGet sub pid2 with
      | none =>
        rw [moveStep_id_of_no_pid hg hp2]
        exact ⟨hP, hC⟩
      | some pEntry =>
        by_cases hcf : cf = nn
        · subst hcf
          rw [moveStep_id_newName]
          exact ⟨hP, hC⟩
        · have hstep : moveStep pid2 nn st cf = moveAction pid2 nn cf st sub pEntry := by
            simp only [moveStep, hg, hp2, if_neg hcf]
          rw [hstep]
          exact moveAction_preserves_PC hne hg hP hC

theorem movePatient_preserves_PC {pid pid2 : String} {k : Nat} {st : Dir}
    (hne : pid ≠ pid2) (hP : PFree st pid) (hC : CShaped st) :
    PFree (movePatientIfReclassified st pid2 k) pid ∧
      CShaped (movePatientIfReclassified st pid2 k) := by
  unfold movePatientIfReclassified
  exact foldl_preserve (fun s => PFree s pid ∧ CShaped s) _ (st.map Prod.fst)
    (fun s a hPC => moveStep_preserves_PC hne hPC.1 hPC.2) st ⟨hP, hC⟩

/-- `moveAction` for another patient keeps the entry `pid ↦ e` found inside
the class folder `cn` exactly as it is. -/
theorem moveAction_preserves_entry {pid pid2 nn cf cn : String} {st sub subcn : Dir}
    {pEntry e : FSEntry}
    (hne : pid ≠ pid2)
    (hcf : dirGet st cf = some (FSEntry.dir sub))
    (hcn : dirGet st cn = some (FSEntry.dir subcn)) (hpe : dirGet subcn pid = some e) :
    ∃ sub2, dirGet (moveAction pid2 nn cf st sub pEntry) cn = some (FSEntry.dir sub2)
      ∧ dirGet sub2 pid = some e := by
  have hA : dirGet (moveMakeTarget nn st) cn = some (FSEntry.dir subcn) := by
    unfold moveMakeTarget
    split
    · exact hcn
    · next hnone =>
      by_cases hnncn : nn = cn
      · rw [hnncn, hcn] at hnone
        simp at hnone
      · rw [dirGet_dirSet_ne _ _ (fun hh => hnncn hh.symm)]
        exact hcn
  have hB : ∃ subB, dirGet (dirSet (moveMakeTarget nn st) cf
      (FSEntry.dir (dirRemove sub pid2))) cn = some (FSEntry.dir subB)
      ∧ dirGet subB pid = some e := by
    by_cases hcfcn : cf = cn
    · subst hcfcn
      have hsubeq : sub = subcn := by
        rw [hcf] at hcn
        cases hcn
        rfl
      refine ⟨dirRemove sub pid2, ?_, ?_⟩
      · rw [dirGet_dirSet_self]
      · rw [dirGet_dirRemove_ne _ hne, hsubeq]
        exact hpe
    · refine ⟨subcn, ?_, hpe⟩
      rw [dirGet_dirSet_ne _ _ (fun hh => hcfcn hh.symm)]
      exact hA
  obtain ⟨subB, hgB, hpeB⟩ := hB
  have hC2 : ∃ subC, dirGet (moveInsertTarget pid2 nn pEntry
      (dirSet (moveMakeTarget nn st) cf (FSEntry.dir (dirRemove sub pid2)))) cn
      = some (FSEntry.dir subC) ∧ dirGet subC pid = some e := by
    unfold moveInsertTarget
    cases hgnn : dirGet (dirSet (moveMakeTarget nn st) cf
        (FSEntry.dir (dirRemove sub pid2))) nn with
    | none => exact ⟨subB, hgB, hpeB⟩
    | some e2 =>
      cases e2 with
      | file c => exact ⟨subB, hgB, hpeB⟩
      | dir tgt =>
        by_cases hnncn : nn = cn
        · subst hnncn
          have htgteq : tgt = subB := by
            rw [hgnn] at hgB
            cases hgB
            rfl
          refine ⟨moveTargetInsert tgt pid2 pEntry, ?_, ?_⟩
          · rw [dirGet_dirSet_self]
          · rw [moveTargetInsert_get_other hne, htgteq]
            exact hpeB
        · refine ⟨subB, ?_, hpeB⟩
          rw [dirGet_dirSet_ne _ _ (fun hh => hnncn hh.symm)]
          exact hgB
  obtain ⟨subC, hgC, hpeC⟩ := hC2
  unfold moveAction
  by_cases hcfcn : cf = cn
  · subst hcfcn
    have hsubeq : sub = subcn := by
      rw [hcf] at hcn
      cases hcn
      rfl
    have hnonempty : (dirRemove sub pid2).isEmpty = false := by
      refine isEmpty_false_of_dirGet (k := pid) (v := e) ?_
      rw [dirGet_dirRemove_ne _ hne, hsubeq]
      exact hpe
    rw [hnonempty]
    simp only [Bool.false_eq_true, if_false]
    exact ⟨subC, hgC, hpeC⟩
  · split
    · refine ⟨subC, ?_, hpeC⟩
      rw [dirGet_dirRemove_ne _ (fun hh => hcfcn hh.symm)]
      exact hgC
    · exact ⟨subC, hgC, hpeC⟩

theorem moveStep_preserves_entry {pid pid2 nn cf cn : String} {st subcn : Dir} {e : FSEntry}
    (hne : pid ≠ pid2)
    (hcn : dirGet st cn = some (FSEntry.dir subcn)) (hpe : dirGet subcn pid = some e) :
    ∃ sub2, dirGet (moveStep pid2 nn st cf) cn = some (FSEntry.dir sub2)
      ∧ dirGet sub2 pid = some e := by
  cases hg : dirGet st cf with
  | none =>
    rw [moveStep_id_of_not_dir (fun s hs => by rw [hg] at hs; cases hs)]
    exact ⟨subcn, hcn, hpe⟩
  | some e2 =>
    cases e2 with
    | file c =>
      rw [moveStep_id_of_not_dir (fun s hs => by rw [hg] at hs; cases hs)]
      exact ⟨subcn, hcn, hpe⟩
    | dir sub =>
      cases hp2 : dirGet sub pid2 with
      | none =>
        rw [moveStep_id_of_no_pid hg hp2]
        exact ⟨subcn, hcn, hpe⟩
      | some pEntry =>
        by_cases hcf : cf = nn
        · subst hcf
          rw [moveStep_id_newName]
          exact ⟨subcn, hcn, hpe⟩
        · have hstep : moveStep pid2 nn st cf = moveAction pid2 nn cf st sub pEntry := by
            simp only [moveStep, hg, hp2, if_neg hcf]
          rw [hstep]
          exact moveAction_preserves_entry hne hg hcn hpe

theorem movePatient_preserves_entry {pid pid2 cn : String} {k : Nat} {st subcn : Dir}
    {e : FSEntry} (hne : pid ≠ pid2)
    (hcn : dirGet st cn = some (FSEntry.dir subcn)) (hpe : dirGet subcn pid = some e) :
    ∃ sub2, dirGet (movePatientIfReclassified st pid2 k) cn = some (FSEntry.dir sub2)
      ∧ dirGet sub2 pid = some e := by
  unfold movePatientIfReclassified
  refine foldl_preserve (fun s => ∃ sub2, dirGet s cn = some (FSEntry.dir sub2)
    ∧ dirGet sub2 pid = some e) _ (st.map Prod.fst) ?_ st ⟨subcn, hcn, hpe⟩
  rintro s a ⟨sub2, hg, hp⟩
  exact moveStep_preserves_entry hne hg hp

theorem foldl_preserve_mem {α σ : Type} (P : σ → Prop) (f : σ → α → σ) (l : List α)
    (h : ∀ s a, a ∈ l → P s → P (f s a)) : ∀ s, P s → P (l.foldl f s) := by
  induction l with
  | nil => intro s hs; exact hs
  | cons x rest ih =>
    intro s hs
    exact ih (fun s a ha hp => h s a (by simp [ha]) hp) (f s x) (h s x (by simp) hs)

theorem ensureSubdir_preserves_PC {pid c p2 : String} {st : Dir} (hne : pid ≠ p2)
    (hP : PFree st pid) (hC : CShaped st) :
    PFree (ensureSubdir st c p2) pid ∧ CShaped (ensureSubdir st c p2) := by
  cases hg : dirGet st c with
  | none =>
    simp only [ensureSubdir, hg]
    have hx : ¬(p2 = pid) := fun hh => hne hh.symm
    exact ⟨PFree_dirSet hP (by simp [dirGet, hx]), CShaped_dirSet_dir hC⟩
  | some e =>
    cases e with
    | file cnt =>
      simp only [ensureSubdir, hg]
      exact ⟨hP, hC⟩
    | dir sub =>
      simp only [ensureSubdir, hg]
      split
      · exact ⟨hP, hC⟩
      · refine ⟨PFree_dirSet hP ?_, CShaped_dirSet_dir hC⟩
        rw [dirGet_append_singleton_ne _ hne]
        exact hP c sub hg

theorem ensureSubdir_preserves_entry {pid p2 c cn : String} {st subcn : Dir} {e : FSEntry}
    (hne : pid ≠ p2)
    (hcn : dirGet st cn = some (FSEntry.dir subcn)) (hpe : dirGet subcn pid = some e) :
    ∃ sub2, dirGet (ensureSubdir st c p2) cn = some (FSEntry.dir sub2)
      ∧ dirGet sub2 pid = some e := by
  cases hg : dirGet st c with
  | none =>
    simp only [ensureSubdir, hg]
    have hccn : ¬(cn = c) := fun hh => by rw [hh, hg] at hcn; cases hcn
    refine ⟨subcn, ?_, hpe⟩
    rw [dirGet_dirSet_ne _ _ hccn]
    exact hcn
  | some e2 =>
    cases e2 with
    | file cnt =>
      simp only [ensureSubdir, hg]
      exact ⟨subcn, hcn, hpe⟩
    | dir sub =>
      simp only [ensureSubdir, hg]
      split
      · exact ⟨subcn, hcn, hpe⟩
      · by_cases hccn : c = cn
        · subst hccn
          have hsubeq : sub = subcn := by
            rw [hg] at hcn
            cases hcn
            rfl
          refine ⟨sub ++ [(p2, FSEntry.dir [])], dirGet_dirSet_self _ _ _, ?_⟩
          rw [dirGet_append_singleton_ne _ hne, hsubeq]
          exact hpe
        · refine ⟨subcn, ?_, hpe⟩
          rw [dirGet_dirSet_ne _ _ (fun hh => hccn hh.symm)]
          exact hcn

theorem copyIntoPatient_preserves_PC {pid c p2 fname content : String} {st : Dir}
    (hne : pid ≠ p2) (hP : PFree st pid) (hC : CShaped st) :
    PFree (copyIntoPatient st c p2 fname content) pid ∧
      CShaped (copyIntoPatient st c p2 fname content) := by
  cases hg : dirGet st c with
  | none =>
    simp only [copyIntoPatient, hg]
    exact ⟨hP, hC⟩
  | some e =>
    cases e with
    | file cnt =>
      simp only [copyIntoPatient, hg]
      exact ⟨hP, hC⟩
    | dir sub =>
      cases hg2 : dirGet sub p2 with
      | none =>
        simp only [copyIntoPatient, hg, hg2]
        exact ⟨hP, hC⟩
      | some e2 =>
        cases e2 with
        | file cnt =>
          simp only [copyIntoPatient, hg, hg2]
          exact ⟨hP, hC⟩
        | dir pf =>
          simp only [copyIntoPatient, hg, hg2]
          refine ⟨PFree_dirSet hP ?_, CShaped_dirSet_dir hC⟩
          rw [dirGet_dirSet_ne _ _ hne]
          exact hP c sub hg

theorem copyIntoPatient_preserves_entry {pid p2 c cn fname content : String}
    {st subcn : Dir} {e : FSEntry} (hne : pid ≠ p2)
    (hcn : dirGet st cn = some (FSEntry.dir subcn)) (hpe : dirGet subcn pid = some e) :
    ∃ sub2, dirGet (copyIntoPatient st c p2 fname content) cn = some (FSEntry.dir sub2)
      ∧ dirGet sub2 pid = some e := by
  cases hg : dirGet st c with
  | none =>
    simp only [copyIntoPatient, hg]
    exact ⟨subcn, hcn, hpe⟩
  | some e2 =>
    cases e2 with
    | file cnt =>
      simp only [copyIntoPatient, hg]
      exact ⟨subcn, hcn, hpe⟩
    | dir sub =>
      cases hg2 : dirGet sub p2 with
      | none =>
        simp only [copyIntoPatient, hg, hg2]
        exact ⟨subcn, hcn, hpe⟩
      | some e3 =>
        cases e3 with
        | file cnt =>
          simp only [copyIntoPatient, hg, hg2]
          exact ⟨subcn, hcn, hpe⟩
        | dir pf =>
          simp only [copyIntoPatient, hg, hg2]
          by_cases hccn : c = cn
          · subst hccn
            have hsubeq : sub = subcn := by
              rw [hg] at hcn
              cases hcn
              rfl
            refine ⟨dirSet sub p2 (FSEntry.dir (dirSet pf fname (FSEntry.file content))),
              dirGet_dirSet_self _ _ _, ?_⟩
            rw [dirGet_dirSet_ne _ _ hne, hsubeq]
            exact hpe
          · refine ⟨subcn, ?_, hpe⟩
            rw [dirGet_dirSet_ne _ _ (fun hh => hccn hh.symm)]
            exact hcn

/-- When the patient sits in no class folder, `movePatientIfReclassified`
does nothing. -/
theorem movePatient_id_of_PFree {pid : String} {k : Nat} {st : Dir} (hP : PFree st pid) :
    movePatientIfReclassified st pid k = st := by
  unfold movePatientIfReclassified
  refine foldl_moveStep_id (fun name _ => ?_)
  cases hg : dirGet st name with
  | none => exact moveStep_id_of_not_dir (fun s hs => by rw [hg] at hs; cases hs)
  | some e =>
    cases e with
    | file c => exact moveStep_id_of_not_dir (fun s hs => by rw [hg] at hs; cases hs)
    | dir s => exact moveStep_id_of_no_pid hg (hP name s hg)

/-- A save step for a different patient keeps the invariants: no class
folder acquires `pid`, class entries stay directories. -/
theorem savePatientFilesStep_preserves_PC {datasetPath : String} {dataset : Dir}
    {isHierarchical : Bool} {pid : String} {st : Dir} {entry : String × Option Label}
    (hne : pid ≠ entry.1) (hP : PFree st pid) (hC : CShaped st) :
    PFree (savePatientFilesStep datasetPath dataset isHierarchical st entry) pid ∧
      CShaped (savePatientFilesStep datasetPath dataset isHierarchical st entry) := by
  obtain ⟨p2, lbl⟩ := entry
  match lbl with
  | none => exact ⟨hP, hC⟩
  | some Label.dup => exact ⟨hP, hC⟩
  | some (Label.cls nc) =>
    simp only [savePatientFilesStep]
    have h1 : PFree (moveMakeTarget ("class" ++ pyStrOfNat nc) st) pid ∧
        CShaped (moveMakeTarget ("class" ++ pyStrOfNat nc) st) :=
      moveMakeTarget_preserves_PC hP hC
    have h2 := movePatient_preserves_PC (k := nc) hne h1.1 h1.2
    have h3 := ensureSubdir_preserves_PC (c := "class" ++ pyStrOfNat nc) hne h2.1 h2.2
    exact foldl_preserve (fun s => PFree s pid ∧ CShaped s) _ _
      (fun s pc hPC => copyIntoPatient_preserves_PC hne hPC.1 hPC.2) _ h3

/-- A save step for a different patient keeps the patient entry of any
class folder exactly as it is. -/
theorem savePatientFilesStep_preserves_entry {datasetPath : String} {dataset : Dir}
    {isHierarchical : Bool} {pid cn : String} {st subcn : Dir} {e : FSEntry}
    {entry : String × Option Label} (hne : pid ≠ entry.1)
    (hcn : dirGet st cn = some (FSEntry.dir subcn)) (hpe : dirGet subcn pid = some e) :
    ∃ sub2, dirGet (savePatientFilesStep datasetPath dataset isHierarchical st entry) cn
      = some (FSEntry.dir sub2) ∧ dirGet sub2 pid = some e := by
  obtain ⟨p2, lbl⟩ := entry
  match lbl with
  | none => exact ⟨subcn, hcn, hpe⟩
  | some Label.dup => exact ⟨subcn, hcn, hpe⟩
  | some (Label.cls nc) =>
    simp only [savePatientFilesStep]
    have h1 : ∃ s1, dirGet (moveMakeTarget ("class" ++ pyStrOfNat nc) st) cn
        = some (FSEntry.dir s1) ∧ dirGet s1 pid = some e := by
      unfold moveMakeTarget
      split
      · exact ⟨subcn, hcn, hpe⟩
      · next hnone =>
        by_cases hnncn : "class" ++ pyStrOfNat nc = cn
        · rw [hnncn, hcn] at hnone
          simp at hnone
        · refine ⟨subcn, ?_, hpe⟩
          rw [dirGet_dirSet_ne _ _ (fun hh => hnncn hh.symm)]
          exact hcn
    obtain ⟨s1, hg1, hp1⟩ := h1
    obtain ⟨s2, hg2, hp2⟩ := movePatient_preserves_entry (k := nc) hne hg1 hp1
    obtain ⟨s3, hg3, hp3⟩ := ensureSubdir_preserves_entry
      (c := "class" ++ pyStrOfNat nc) hne hg2 hp2
    refine foldl_preserve (fun s => ∃ s4, dirGet s cn = some (FSEntry.dir s4)
      ∧ dirGet s4 pid = some e) _ _ ?_ _ ⟨s3, hg3, hp3⟩
    rintro s pc ⟨s4, hg4, hp4⟩
    exact copyIntoPatient_preserves_entry hne hg4 hp4

/-- Folding the copies installs every carried file under the patient
folder (basenames assumed distinct, as they are for one patient's files). -/
theorem copies_fold_spec {cn pid : String} (fs : List (String × String)) :
    ∀ (st subx pfx : Dir), dirGet st cn = some (FSEntry.dir subx) →
    dirGet subx pid = some (FSEntry.dir pfx) →
    (fs.map (fun pc => pyBasename pc.1)).Nodup →
    ∃ suby pfy,
      dirGet (fs.foldl (fun s pc => copyIntoPatient s cn pid (pyBasename pc.1) pc.2) st) cn
        = some (FSEntry.dir suby)
      ∧ dirGet suby pid = some (FSEntry.dir pfy)
      ∧ (∀ pc ∈ fs, dirGet pfy (pyBasename pc.1) = some (FSEntry.file pc.2))
      ∧ (∀ fn, fn ∉ fs.map (fun pc => pyBasename pc.1) → dirGet pfy fn = dirGet pfx fn) := by
  induction fs with
  | nil =>
    intro st subx pfx h1 h2 _
    exact ⟨subx, pfx, h1, h2, by simp, fun fn _ => rfl⟩
  | cons pc0 rest ih =>
    intro st subx pfx h1 h2 hnodup
    simp only [List.map_cons, List.nodup_cons] at hnodup
    have hcopy : copyIntoPatient st cn pid (pyBasename pc0.1) pc0.2
        = dirSet st cn (FSEntry.dir (dirSet subx pid
          (FSEntry.dir (dirSet pfx (pyBasename pc0.1) (FSEntry.file pc0.2))))) := by
      simp only [copyIntoPatient, h1, h2]
    simp only [List.foldl_cons, hcopy]
    obtain ⟨suby, pfy, hgy, hpy, hfiles, hother⟩ := ih
      (dirSet st cn (FSEntry.dir (dirSet subx pid
        (FSEntry.dir (dirSet pfx (pyBasename pc0.1) (FSEntry.file pc0.2))))))
      (dirSet subx pid (FSEntry.dir (dirSet pfx (pyBasename pc0.1) (FSEntry.file pc0.2))))
      (dirSet pfx (pyBasename pc0.1) (FSEntry.file pc0.2))
      (dirGet_dirSet_self _ _ _) (dirGet_dirSet_self _ _ _) hnodup.2
    refine ⟨suby, pfy, hgy, hpy, ?_, ?_⟩
    · intro pc hpc
      rcases List.mem_cons.mp hpc with rfl | hpc2
      · rw [hother _ hnodup.1, dirGet_dirSet_self]
      · exact hfiles pc hpc2
    · intro fn hfn
      simp only [List.map_cons, List.mem_cons, not_or] at hfn
      rw [hother fn hfn.2, dirGet_dirSet_ne _ _ hfn.1]

/-- The save step for the patient itself creates the class and patient
folders and copies every original file below them. -/
theorem savePatientFilesStep_establishes {datasetPath : String} {dataset : Dir}
    {isHierarchical : Bool} {st : Dir} {pid : String} {n : Nat}
    (hP : PFree st pid) (hC : CShaped st)
    (hbn : ((findOriginalFileEntries datasetPath dataset pid isHierarchical).map
      (fun pc => pyBasename pc.1)).Nodup) :
    ∃ subx pfx,
      dirGet (savePatientFilesStep datasetPath dataset isHierarchical st
        (pid, some (Label.cls n))) ("class" ++ pyStrOfNat n) = some (FSEntry.dir subx)
      ∧ dirGet subx pid = some (FSEntry.dir pfx)
      ∧ ∀ pc ∈ findOriginalFileEntries datasetPath dataset pid isHierarchical,
          dirGet pfx (pyBasename pc.1) = some (FSEntry.file pc.2) := by
  simp only [savePatientFilesStep]
  have h1 : ∃ subcn, dirGet (moveMakeTarget ("class" ++ pyStrOfNat n) st)
      ("class" ++ pyStrOfNat n) = some (FSEntry.dir subcn) ∧ dirGet subcn pid = none := by
    unfold moveMakeTarget
    cases hg : dirGet st ("class" ++ pyStrOfNat n) with
    | none =>
      refine ⟨[], ?_, rfl⟩
      simp only [hg, Option.isSome_none, Bool.false_eq_true, if_false]
      exact dirGet_dirSet_self _ _ _
    | some e =>
      obtain ⟨s, rfl⟩ := hC n e hg
      exact ⟨s, by simp [hg], hP _ s hg⟩
  obtain ⟨subcn, hgcn, hfree⟩ := h1
  have hPC1 : PFree (moveMakeTarget ("class" ++ pyStrOfNat n) st) pid ∧
      CShaped (moveMakeTarget ("class" ++ pyStrOfNat n) st) :=
    moveMakeTarget_preserves_PC hP hC
  have hmove : movePatientIfReclassified (moveMakeTarget ("class" ++ pyStrOfNat n) st) pid n
      = moveMakeTarget ("class" ++ pyStrOfNat n) st := movePatient_id_of_PFree hPC1.1
  rw [hmove]
  have hensure : ensureSubdir (moveMakeTarget ("class" ++ pyStrOfNat n) st)
      ("class" ++ pyStrOfNat n) pid
      = dirSet (moveMakeTarget ("class" ++ pyStrOfNat n) st) ("class" ++ pyStrOfNat n)
        (FSEntry.dir (subcn ++ [(pid, FSEntry.dir [])])) := by
    simp only [ensureSubdir, hgcn, hfree, Option.isSome_none, Bool.false_eq_true, if_false]
  rw [hensure]
  obtain ⟨suby, pfy, hgy, hpy, hfiles, _⟩ :=
    copies_fold_spec (findOriginalFileEntries datasetPath dataset pid isHierarchical)
      (dirSet (moveMakeTarget ("class" ++ pyStrOfNat n) st) ("class" ++ pyStrOfNat n)
        (FSEntry.dir (subcn ++ [(pid, FSEntry.dir [])])))
      (subcn ++ [(pid, FSEntry.dir [])]) []
      (dirGet_dirSet_self _ _ _) (dirGet_append_singleton_self _ hfree) hbn
  exact ⟨suby, pfy, hgy, hpy, hfiles⟩

theorem listIsPrefix_append_self (a b : List Char) : listIsPrefix a (a ++ b) = true := by
  induction a with
  | nil => rfl
  | cons c t ih => simp [listIsPrefix, ih]

/-- Every `class<k>` name starts with `"class"`. -/
theorem pyStartsWith_className (k : Nat) :
    pyStartsWith ("class" ++ pyStrOfNat k) "class" = true := by
  unfold pyStartsWith
  rw [String.data_append]
  exact listIsPrefix_append_self _ _

theorem dir_of_isFileE_false {e : FSEntry} (h : e.isFileE = false) :
    ∃ s, e = FSEntry.dir s := by
  cases e with
  | file c => simp [FSEntry.isFileE] at h
  | dir s => exact ⟨s, rfl⟩

/-- C2: for every patient whose label in the classification map is the
integer class `n`, `saveClassificationData` copies each of the patient's
original dataset files to `class<n>/<patientID>/<fileName>` under the
output root, creating the class and patient directories if absent, and
leaves the dataset unchanged (copy, not move).  Premises: the map has
distinct keys (a Python dict); the patient is not yet present in any
output folder (a fresh save — reclassification moves are C4); existing
`class...` entries of the output root are directories; the patient's
original files have distinct basenames. -/
theorem c2_saveClassificationData_copies (datasetPath : String) (dataset : Dir)
    (isHierarchical : Bool) (out : Dir) (cd : CData) (pid : String) (n : Nat)
    (hmem : (pid, some (Label.cls n)) ∈ cd)
    (hkeys : (cd.map Prod.fst).Nodup)
    (hfree : ∀ p ∈ out, entryPidFree pid p.2 = true)
    (hclass : ∀ p ∈ out, pyStartsWith p.1 "class" = true → p.2.isFileE = false)
    (hbn : ((findOriginalFileEntries datasetPath dataset pid isHierarchical).map
      (fun pc => pyBasename pc.1)).Nodup) :
    SaveCopiesSpec datasetPath dataset isHierarchical out cd pid n := by
  refine ⟨rfl, ?_⟩
  have hPfree : PFree out pid := by
    intro name s hg
    have hf := hfree _ (dirGet_mem hg)
    simpa [entryPidFree, Option.isNone_iff_eq_none] using hf
  have hCsh : CShaped out := by
    intro k e hg
    exact dir_of_isFileE_false (hclass _ (dirGet_mem hg) (pyStartsWith_className k))
  obtain ⟨l1, l2, rfl⟩ := List.append_of_mem hmem
  rw [List.map_append, List.map_cons] at hkeys
  rw [List.nodup_append] at hkeys
  obtain ⟨hn1, hn2, hdisj⟩ := hkeys
  have hne1 : ∀ a ∈ l1, pid ≠ a.1 := by
    intro a ha heq
    have hm : a.1 ∈ List.map Prod.fst l1 := List.mem_map_of_mem Prod.fst ha
    rw [← heq] at hm
    exact hdisj hm (List.mem_cons_self _ _)
  have hne2 : ∀ a ∈ l2, pid ≠ a.1 := by
    intro a ha heq
    rw [List.nodup_cons] at hn2
    have hm : a.1 ∈ List.map Prod.fst l2 := List.mem_map_of_mem Prod.fst ha
    rw [← heq] at hm
    exact hn2.1 hm
  simp only [SaveCopiesSpec, saveClassificationFiles, savePatientFolders,
    List.foldl_append, List.foldl_cons]
  have hfoldA : PFree (l1.foldl (savePatientFilesStep datasetPath dataset isHierarchical)
      out) pid ∧ CShaped (l1.foldl (savePatientFilesStep datasetPath dataset isHierarchical)
      out) :=
    foldl_preserve_mem (fun s => PFree s pid ∧ CShaped s) _ l1
      (fun s a ha hp => savePatientFilesStep_preserves_PC (hne1 a ha) hp.1 hp.2)
      out ⟨hPfree, hCsh⟩
  obtain ⟨subx, pfx, hgx, hpx, hfiles⟩ :=
    savePatientFilesStep_establishes (n := n) hfoldA.1 hfoldA.2 hbn
  have hfoldB :=
    foldl_preserve_mem (fun s => ∃ sub2,
        dirGet s ("class" ++ pyStrOfNat n) = some (FSEntry.dir sub2) ∧
        dirGet sub2 pid = some (FSEntry.dir pfx))
      (savePatientFilesStep datasetPath dataset isHierarchical) l2
      (fun s a ha hp => by
        obtain ⟨sub2, h1, h2⟩ := hp
        exact savePatientFilesStep_preserves_entry (hne2 a ha) h1 h2)
      _ ⟨subx, hgx, hpx⟩
  obtain ⟨suby, hgy, hpy⟩ := hfoldB
  exact ⟨suby, pfx, hgy, hpy, hfiles⟩

/-- Witness for C2: one patient `p` classified into class 0, an empty
dataset tree and an empty output tree. -/
theorem c2_witness :
    (("p", some (Label.cls 0)) ∈ ([("p", some (Label.cls 0))] : CData)) ∧
    SaveCopiesSpec "/ds" [] false [] [("p", some (Label.cls 0))] "p" 0 :=
  ⟨by decide,
    c2_saveClassificationData_copies "/ds" [] false [] [("p", some (Label.cls 0))] "p" 0
      (by decide) (by decide) (by simp) (by simp)
      (by simp [findOriginalFileEntries, walkFrom, walkList])⟩

end ClassAnnotation
